import Mathlib

/-!
# Verification of the change-view change-tree reconciliation core

This file gives a shallow embedding of the change-tree reconciliation core of
the `change-view` repository (`src/unified-document.ts`, primary revision:
the flat-record version with `leftPath`/`leftValue`/`rightPath`/`rightValue`
fields and the output assertion loops, together with the recursive rendering
descent of `src/change-view.tsx`: `getImplicitChangeType`, the shape dispatch
in `ChangeObjectProperty`/`ChangeArrayItem`, and the root record built in
`ChangeView`), and proves the specification's testable properties about it.

Conventions of the embedding:
* JavaScript values are modelled by `CV.JsonValue` (leaves, sequences,
  mappings); rich scalar types are irrelevant to the reconciliation
  algorithm and are collapsed into `leaf`.
* `undefined` fields become `Option`; a thrown `Error` or a JavaScript
  `TypeError` becomes `Except.error` with the thrown message.
* jsondiffpatch deltas are modelled by `CV.Change`: an entry is either an
  array of values (add / update / delete / malformed, distinguished by
  length exactly as the source does) or a nested delta, which is either an
  object delta (keyed by property name) or an array delta (`_t: 'a'`, split
  into the deletion-marker keys `_i` — whose 3-element payloads the source
  never reads — and the remaining integer keys, in iteration order).
* Array indices are `Nat`, following the source's type annotations
  (`index as unknown as number`).
-/

namespace CV

/-- A JavaScript value as seen by the reconciliation core: a scalar leaf, an
array, or a simple object (ordered key/value list; JavaScript object keys are
unique, which well-formedness hypotheses make explicit where it matters). -/
inductive JsonValue where
  | leaf : Int → JsonValue
  | arr : List JsonValue → JsonValue
  | obj : List (String × JsonValue) → JsonValue
deriving Repr

/-- `shape-utils.isSimpleObject`: true exactly for plain objects. -/
def isSimpleObject : JsonValue → Bool
  | .obj _ => true
  | _ => false

/-- The three value shapes distinguished by `shape-utils.getValueShape`. -/
inductive Shape where
  | array
  | object
  | leaf
deriving DecidableEq, Repr

/-- `shape-utils.getValueShape`: arrays, then simple objects, else leaf. -/
def getValueShape : JsonValue → Shape
  | .arr _ => .array
  | .obj _ => .object
  | .leaf _ => .leaf

/-- `getValueShape` as applied to a possibly-`undefined` value: in JavaScript
`getValueShape(undefined)` is `'leaf'` (not an array, not a simple object). -/
def getValueShapeO : Option JsonValue → Shape
  | some v => getValueShape v
  | none => .leaf

/-- One segment of an `ObjectPath`: a string key or an integer index. -/
inductive PathSeg where
  | key : String → PathSeg
  | idx : Nat → PathSeg
deriving DecidableEq, Repr

/-- `ObjectPath = (string | number)[]`. -/
abbrev ObjectPath := List PathSeg

/-- `ChangeType = 'unchanged'|'changed'|'added'|'removed'`. -/
inductive ChangeType where
  | unchanged
  | changed
  | added
  | removed
deriving DecidableEq, Repr

/-- A jsondiffpatch delta node, as consumed by the core.  An entry is either
an array (`[right]`, `[left, right]`, `[left, 0, 0]`, or malformed — the
source distinguishes them only by length), an object delta, or an array delta
(`_t: 'a'`).  The array delta carries the deletion-marker indices (from the
`_i` keys; the source never reads their payloads) and the remaining
integer-keyed entries in iteration order. -/
inductive Change where
  | entryList : List JsonValue → Change
  | objDelta : List (String × Change) → Change
  | arrDelta : List Nat → List (Nat × Change) → Change

/-- `Branch = { path, value }`. -/
structure Branch where
  path : ObjectPath
  value : JsonValue

/-- The argument record of `propertiesWithChanges` / `itemsWithChanges`.
The source's union type allows either side to be absent; `delta` is null for
unchanged branches. -/
structure BranchesWithChanges where
  left : Option Branch
  right : Option Branch
  delta : Option Change
  implicitChangeType : ChangeType

/-- `ObjectWithChange` (primary revision: flat optional fields). -/
structure ObjectWithChange where
  implicitChangeType : ChangeType
  changeType : ChangeType
  leftPath : Option ObjectPath
  leftValue : Option JsonValue
  rightPath : Option ObjectPath
  rightValue : Option JsonValue
  delta : Option Change

/-- `PropertyWithChange = ObjectWithChange & { objectKey: string }`. -/
structure PropertyWithChange extends ObjectWithChange where
  objectKey : String

/-- `ItemWithChange = ObjectWithChange & { index: number }`. -/
structure ItemWithChange extends ObjectWithChange where
  index : Nat

/-- `Object.entries(value)`: the key/value list of an object; for an array,
index-strings paired with elements; for a scalar, empty. -/
def entriesOf : JsonValue → List (String × JsonValue)
  | .obj kvs => kvs
  | .arr xs => xs.enum.map fun iv => (toString iv.1, iv.2)
  | .leaf _ => []

/-- JavaScript property read `value[key]`. -/
def getProp : JsonValue → String → Option JsonValue
  | .obj kvs, k => kvs.lookup k
  | .arr xs, k => k.toNat?.bind fun i => xs.get? i
  | .leaf _, _ => none

/-- `[...branch.path, seg]` when the branch exists, else `undefined`. -/
def childPath (b : Option Branch) (seg : PathSeg) : Option ObjectPath :=
  b.map fun br => br.path ++ [seg]

/-- The provisional record `propertiesWithChanges` creates per base key:
`changeType: 'unchanged'`, left branch from the left side (if present), right
value read directly off `right.value[objectKey]` (if the right side is
present). -/
def mkBaseProperty (ict : ChangeType) (left right : Option Branch)
    (objectKey : String) (leftValue : JsonValue) : PropertyWithChange :=
  let leftPath := childPath left (.key objectKey)
  let rightPath := childPath right (.key objectKey)
  { implicitChangeType := ict
    changeType := .unchanged
    objectKey
    leftPath
    leftValue := if leftPath.isSome then some leftValue else none
    rightPath
    rightValue := if rightPath.isSome then right.bind (fun r => getProp r.value objectKey) else none
    delta := none }

/-- The error thrown when a delta entry references a key missing from the
enumerated base records (quote placement as in the source template). -/
def propertyMissing (key : String) : String :=
  "property with key \"" ++ key ++ " does not exist\""

/-- `properties.find((p) => p.objectKey === key)` followed by an in-place
mutation: replaces the first record with the given key by `f` of it, or
`none` when no record matches. -/
def updateProperty (key : String) (f : PropertyWithChange → PropertyWithChange) :
    List PropertyWithChange → Option (List PropertyWithChange)
  | [] => none
  | p :: rest =>
    if p.objectKey = key then some (f p :: rest)
    else (updateProperty key f rest).map (p :: ·)

/-- The `added` record a 1-element delta entry appends: no left branch,
right path extending `right.path`. -/
def addedProperty (ict : ChangeType) (key : String) (path : ObjectPath)
    (rv : JsonValue) : PropertyWithChange :=
  { implicitChangeType := ict, changeType := .added, objectKey := key,
    leftPath := none, leftValue := none,
    rightPath := some path, rightValue := some rv, delta := none }

/-- One iteration of the delta loop of `propertiesWithChanges`: a 1-element
entry appends an `added` record, a 2-element entry promotes the existing
record to `changed` and overwrites its right value, a 3-element entry marks
it `removed` and deletes the right branch, any other length is fatal, and a
nested delta is stored on the existing record. -/
def applyPropertyChange (ict : ChangeType) (right : Option Branch)
    (props : List PropertyWithChange) (key : String) (change : Change) :
    Except String (List PropertyWithChange) :=
  match change with
  | .entryList [rightValue] =>
    match right with
    | some r =>
      .ok (props ++ [addedProperty ict key (r.path ++ [.key key]) rightValue])
    | none => .error "TypeError: right is undefined"
  | .entryList [_, rightValue] =>
    match updateProperty key
        (fun p => { p with rightValue := some rightValue, changeType := .changed }) props with
    | some props' => .ok props'
    | none => .error (propertyMissing key)
  | .entryList [_, _, _] =>
    match updateProperty key
        (fun p => { p with changeType := .removed, rightValue := none, rightPath := none }) props with
    | some props' => .ok props'
    | none => .error (propertyMissing key)
  | .entryList _ => .error "unexpected change length"
  | nestedDelta =>
    match updateProperty key (fun p => { p with delta := some nestedDelta }) props with
    | some props' => .ok props'
    | none => .error (propertyMissing key)

/-- `for (const [key, change] of Object.entries(delta)) ...`. -/
def applyPropertyDelta (ict : ChangeType) (right : Option Branch)
    (props : List PropertyWithChange) :
    List (String × Change) → Except String (List PropertyWithChange)
  | [] => .ok props
  | (key, change) :: rest => do
    let props' ← applyPropertyChange ict right props key change
    applyPropertyDelta ict right props' rest

/-- The shape-change predicate of the rewriting loop: a `changed` record
whose left and right values have different shapes. -/
def isShapeMismatched (p : PropertyWithChange) : Bool :=
  p.changeType = ChangeType.changed &&
    getValueShapeO p.leftValue ≠ getValueShapeO p.rightValue

/-- The `removed` half the rewriting loop splices in for a shape-mismatched
`changed` record: left branch only. -/
def splitRemovedHalf (ict : ChangeType) (p : PropertyWithChange) : PropertyWithChange :=
  { implicitChangeType := ict, changeType := .removed, objectKey := p.objectKey,
    leftPath := p.leftPath, leftValue := p.leftValue,
    rightPath := none, rightValue := none, delta := none }

/-- The `added` half: right value, but (as in the source) the *left* path. -/
def splitAddedHalf (ict : ChangeType) (p : PropertyWithChange) : PropertyWithChange :=
  { implicitChangeType := ict, changeType := .added, objectKey := p.objectKey,
    leftPath := none, leftValue := none,
    rightPath := p.leftPath, rightValue := p.rightValue, delta := none }

/-- One iteration of the rewriting loop: find the first shape-mismatched
`changed` record and splice its `removed`/`added` halves in its place
(`properties.splice(index, 1, deleteProperty, addProperty)`); `none` when no
record matches (the loop's `findIndex` returns `-1` and the loop stops). -/
def splitStep (ict : ChangeType) :
    List PropertyWithChange → Option (List PropertyWithChange)
  | [] => none
  | p :: rest =>
    if isShapeMismatched p then
      some (splitRemovedHalf ict p :: splitAddedHalf ict p :: rest)
    else
      (splitStep ict rest).map (p :: ·)

/-- The number of shape-mismatched `changed` records: the variant that makes
the source's `while (changed)` loop terminate. -/
def mismatchCount (props : List PropertyWithChange) : Nat :=
  (props.filter isShapeMismatched).length

/-- The rewriting loop with an explicit iteration budget.  One unit of fuel
per iteration: find the first shape-mismatched `changed` record and splice in
its two halves, stopping as soon as no record matches. -/
def shapeSplitAux (ict : ChangeType) : Nat → List PropertyWithChange → List PropertyWithChange
  | 0, props => props
  | n + 1, props =>
    match splitStep ict props with
    | none => props
    | some props' => shapeSplitAux ict n props'

/-- The `while (changed)` rewriting loop of `propertiesWithChanges`:
repeatedly splice the first shape-mismatched `changed` record into its
`removed`/`added` halves until none remains.  Each iteration strictly
decreases the number of mismatched records (`splitStep_mismatchCount`), so a
budget of `mismatchCount props` iterations runs the loop to completion
(`shapeSplit_no_mismatch` confirms that nothing mismatched survives, i.e.
that the loop indeed terminates with this budget). -/
def shapeSplit (ict : ChangeType) (props : List PropertyWithChange) :
    List PropertyWithChange :=
  shapeSplitAux ict (mismatchCount props) props

/-- The final assertion loop of `propertiesWithChanges`: a path must be
carried exactly when the matching value is. -/
def checkProperty (p : PropertyWithChange) : Except String Unit :=
  if p.leftPath.isSome && p.leftValue.isNone then
    .error "property: leftPath, but no leftValue"
  else if p.rightPath.isSome && p.rightValue.isNone then
    .error "property: rightPath, but no rightValue"
  else if p.leftValue.isSome && p.leftPath.isNone then
    .error "property: leftValue, but no leftPath"
  else if p.rightValue.isSome && p.rightPath.isNone then
    .error "property: rightValue, but no rightPath"
  else
    .ok ()

def checkProperties : List PropertyWithChange → Except String Unit
  | [] => .ok ()
  | p :: rest => do
    checkProperty p
    checkProperties rest

/-- The base value both operations enumerate: `right.value` when the
implicit change type is `added`, else `left.value`; reading off an absent
side is a JavaScript `TypeError`. -/
def baseValue (b : BranchesWithChanges) : Except String JsonValue :=
  match b.implicitChangeType with
  | .added =>
    match b.right with
    | some r => .ok r.value
    | none => .error "TypeError: right is undefined"
  | _ =>
    match b.left with
    | some l => .ok l.value
    | none => .error "TypeError: left is undefined"

/-- The provisional record list, one per entry of the base value. -/
def basePropsOf (b : BranchesWithChanges) (value : JsonValue) : List PropertyWithChange :=
  (entriesOf value).map fun kv => mkBaseProperty b.implicitChangeType b.left b.right kv.1 kv.2

/-- The `if (delta)` block of `propertiesWithChanges`.  A top-level delta
that is not a simple object (an `entryList`) trips
`assert(isSimpleObject(delta))`; an array delta reaches the entry loop where
its `_t: 'a'` string entry trips `assert(isSimpleObject(change))`. -/
def propertiesDeltaStage (b : BranchesWithChanges) (props : List PropertyWithChange) :
    Except String (List PropertyWithChange) :=
  match b.delta with
  | none => .ok props
  | some (.objDelta entries) => applyPropertyDelta b.implicitChangeType b.right props entries
  | some (.arrDelta _ _) => .error "change should be a simple object"
  | some (.entryList _) => .error "delta should be a simple object"

/-- `propertiesWithChanges` (`unified-document.ts`, primary revision): base
records from the enumerated side, the delta loop, the shape-change rewriting
loop, then the output assertions. -/
def propertiesWithChanges (b : BranchesWithChanges) :
    Except String (List PropertyWithChange) := do
  let value ← baseValue b
  let props ← propertiesDeltaStage b (basePropsOf b value)
  let props := shapeSplit b.implicitChangeType props
  checkProperties props
  pure props

/-- The provisional record `itemsWithChanges` creates per base element:
`changeType: 'unchanged'`, and on both sides the *left* element value
(`rightValue: rightPath ? leftValue : undefined`). -/
def mkBaseItem (ict : ChangeType) (left right : Option Branch)
    (index : Nat) (leftValue : JsonValue) : ItemWithChange :=
  let leftPath := childPath left (.idx index)
  let rightPath := childPath right (.idx index)
  { implicitChangeType := ict
    changeType := .unchanged
    index
    leftPath
    leftValue := if leftPath.isSome then some leftValue else none
    rightPath
    rightValue := if rightPath.isSome then some leftValue else none
    delta := none }

/-- The error thrown when a deletion marker references an index outside the
base array. -/
def itemMissing (index : Nat) : String :=
  "item with index \"" ++ toString index ++ "\" does not exist"

/-- One step of the removal pass: mark the record at (list position =
original index) `index` as `removed`, drop its right branch, then decrement
the stored index of every record whose index exceeds `index`. -/
def removeItem (items : List ItemWithChange) (index : Nat) :
    Except String (List ItemWithChange) :=
  if h : index < items.length then
    let marked := items.set index
      { items.get ⟨index, h⟩ with changeType := .removed, rightValue := none, rightPath := none }
    .ok (marked.map fun item =>
      if index < item.index then { item with index := item.index - 1 } else item)
  else
    .error (itemMissing index)

/-- The `added` record the insertion pass splices in: no left branch, right
value `change[0]` (absent when the entry list is empty). -/
def addedItem (ict : ChangeType) (index : Nat) (path : ObjectPath)
    (rv : Option JsonValue) : ItemWithChange :=
  { implicitChangeType := ict, changeType := .added, index := index,
    leftPath := none, leftValue := none,
    rightPath := some path, rightValue := rv, delta := none }

/-- One step of the insertion pass: a non-array entry and the 3- and
2-element forms are fatal (in that order); otherwise increment the index of
every non-removed record whose index is ≥ the insertion index and splice in a
new `added` record at that list position (`items.splice(index, 0, …)`, which
clamps to the end like JavaScript).  The new record's right value is
`change[0]` and its right path extends `(right ?? left).path`. -/
def insertItem (ict : ChangeType) (left right : Option Branch)
    (items : List ItemWithChange) (index : Nat) (change : Change) :
    Except String (List ItemWithChange) :=
  match change with
  | .entryList entries =>
    if entries.length = 3 then .error "array moves are not supported"
    else if entries.length = 2 then .error "array changes are not supported"
    else
      match right.orElse (fun _ => left) with
      | some br =>
        let shifted := items.map fun item =>
          if index ≤ item.index ∧ item.changeType ≠ .removed then
            { item with index := item.index + 1 }
          else item
        .ok (shifted.take index ++
          addedItem ict index (br.path ++ [.idx index]) (entries.get? 0) :: shifted.drop index)
      | none => .error "TypeError: right and left are undefined"
  | _ => .error "unexpected non-array"

/-- The final assertion loop of `itemsWithChanges` (its `console.log` calls
have no modelled effect). -/
def checkItem (it : ItemWithChange) : Except String Unit :=
  if it.leftPath.isSome && it.leftValue.isNone then
    .error "item: leftPath, but no leftValue"
  else if it.rightPath.isSome && it.rightValue.isNone then
    .error "item: rightPath, but no rightValue"
  else if it.leftValue.isSome && it.leftPath.isNone then
    .error "item: leftValue, but no leftPath"
  else if it.rightValue.isSome && it.rightPath.isNone then
    .error "item: rightValue, but no rightPath"
  else
    .ok ()

def checkItems : List ItemWithChange → Except String Unit
  | [] => .ok ()
  | it :: rest => do
    checkItem it
    checkItems rest

/-- The provisional record list, one per base element, indices `0..n-1`. -/
def baseItemsOf (b : BranchesWithChanges) (xs : List JsonValue) : List ItemWithChange :=
  xs.enum.map fun iv => mkBaseItem b.implicitChangeType b.left b.right iv.1 iv.2

/-- The `if (delta)` block of `itemsWithChanges`: `assert(delta._t === 'a')`,
then the removal pass over all deletion markers, then the insertion pass. -/
def itemsDeltaStage (b : BranchesWithChanges) (items : List ItemWithChange) :
    Except String (List ItemWithChange) :=
  match b.delta with
  | none => .ok items
  | some (.arrDelta removals inserts) => do
    let items ← removals.foldlM removeItem items
    inserts.foldlM
      (fun its e => insertItem b.implicitChangeType b.left b.right its e.1 e.2) items
  | some _ => .error "delta._t is not a"

/-- `itemsWithChanges` (`unified-document.ts`, primary revision): base
records, the two delta passes, then the output assertions.  A non-array base
value makes `value.map` a `TypeError`. -/
def itemsWithChanges (b : BranchesWithChanges) :
    Except String (List ItemWithChange) := do
  let value ← baseValue b
  let xs ← match value with
    | .arr xs => pure xs
    | _ => .error "TypeError: value.map is not a function"
  let items ← itemsDeltaStage b (baseItemsOf b xs)
  checkItems items
  pure items

/-- `change-view.tsx` `getImplicitChangeType`: `added`/`removed` are sticky
as the descent recurses; otherwise the record's own change type is passed
down. -/
def getImplicitChangeType (obj : ObjectWithChange) : ChangeType :=
  if obj.implicitChangeType = .added ∨ obj.implicitChangeType = .removed then
    obj.implicitChangeType
  else
    obj.changeType

/-- The branch the descent rebuilds from a record
(`obj.leftPath ? { path: obj.leftPath, value: obj.leftValue } : undefined`).
The source copies the value unchecked; records that pass the output
assertions always pair a path with a value, so the error case marks the
corner the source leaves undefined. -/
def branchFrom (path : Option ObjectPath) (value : Option JsonValue) :
    Except String (Option Branch) :=
  match path, value with
  | none, _ => .ok none
  | some p, some v => .ok (some { path := p, value := v })
  | some _, none => .error "branch with a path but no value"

/-- The `BranchesWithChanges` argument `ChangeObject`/`ChangeArray` build
when expanding a record. -/
def toBranches (obj : ObjectWithChange) : Except String BranchesWithChanges := do
  let left ← branchFrom obj.leftPath obj.leftValue
  let right ← branchFrom obj.rightPath obj.rightValue
  pure { left, right, delta := obj.delta, implicitChangeType := getImplicitChangeType obj }

/-- The value whose shape decides how a record is rendered
(`changeType === 'added' ? rightValue : leftValue` in
`ChangeObjectProperty` / `ChangeArrayItem`). -/
def displayValue (obj : ObjectWithChange) : Option JsonValue :=
  if obj.changeType = .added then obj.rightValue else obj.leftValue

/-- A node of the change tree: the record together with its expanded
children (empty for leaves). -/
inductive ChangeNode where
  | node : ObjectWithChange → List ChangeNode → ChangeNode

/-- Runs the descent over a list of child records, collecting the child
trees. -/
def buildChildren (go : ObjectWithChange → Except String ChangeNode)
    (objs : List ObjectWithChange) : Except String (List ChangeNode) :=
  objs.foldr (fun o acc => do
    let c ← go o
    let cs ← acc
    pure (c :: cs)) (pure [])

/-- The recursive descent of the rendering layer, with an explicit depth
budget (`fuel`, one unit per level) standing in for the structural recursion
over the actual JavaScript values: an array display value expands through
`itemsWithChanges`, a simple-object one through `propertiesWithChanges`, and
anything else is a leaf with no children. -/
def buildNode : Nat → ObjectWithChange → Except String ChangeNode
  | 0, _ => .error "out of fuel"
  | n + 1, obj =>
    match displayValue obj with
    | some (.arr _) => do
      let b ← toBranches obj
      let items ← itemsWithChanges b
      let children ← buildChildren (fun o => buildNode n o) (items.map (·.toObjectWithChange))
      pure (.node obj children)
    | some (.obj _) => do
      let b ← toBranches obj
      let props ← propertiesWithChanges b
      let children ← buildChildren (fun o => buildNode n o) (props.map (·.toObjectWithChange))
      pure (.node obj children)
    | _ => pure (.node obj [])

/-- The root record `ChangeView` builds for a `(before, after)` pair: both
paths empty, both documents attached, `unchanged` everywhere, and the delta
the Diff Engine reported. -/
def rootRecord (before after : JsonValue) (delta : Option Change) : ObjectWithChange :=
  { implicitChangeType := .unchanged, changeType := .unchanged,
    leftPath := some [], leftValue := some before,
    rightPath := some [], rightValue := some after, delta }

/-- `build(before, after)` with the delta supplied explicitly (the Diff
Engine is an external collaborator; for identical documents it reports no
delta). -/
def buildTree (fuel : Nat) (before after : JsonValue) (delta : Option Change) :
    Except String ChangeNode :=
  buildNode fuel (rootRecord before after delta)

/-- `p` holds of every record of the tree. -/
def allRecords (p : ObjectWithChange → Bool) : ChangeNode → Bool
  | .node o cs => p o && cs.attach.all fun c => allRecords p c.1
decreasing_by
  have := List.sizeOf_lt_of_mem c.2
  simp only [ChangeNode.node.sizeOf_spec]
  omega

/-- A well-formed JavaScript value: object keys are unique at every level
(JavaScript objects cannot carry duplicate keys). -/
def wfValue : JsonValue → Bool
  | .leaf _ => true
  | .arr xs => xs.attach.all fun x => wfValue x.1
  | .obj kvs =>
    decide (kvs.map Prod.fst).Nodup && kvs.attach.all fun kv => wfValue kv.1.2
decreasing_by
  · have := List.sizeOf_lt_of_mem x.2
    simp only [JsonValue.arr.sizeOf_spec]
    omega
  · have h1 := List.sizeOf_lt_of_mem kv.2
    have h2 : sizeOf kv.1.2 < sizeOf kv.1 := by
      rcases kv.1 with ⟨a, b2⟩
      simp only [Prod.mk.sizeOf_spec]
      omega
    simp only [JsonValue.obj.sizeOf_spec]
    omega

/-- Delta keys are unique, as JavaScript object keys always are. -/
def deltaKeysNodup : Option Change → Prop
  | some (.objDelta entries) => (entries.map Prod.fst).Nodup
  | _ => True

/-- The calls the recursive descent actually makes: an `added` implicit
branch has only a right side and no delta (records created as `added` carry
`delta: null`), a `removed` one only a left side and no delta, and a
two-sided branch has both sides; delta keys are unique as JavaScript object
keys always are. -/
def WfCall (b : BranchesWithChanges) : Prop :=
  (b.implicitChangeType = .added → b.left = none ∧ b.right.isSome ∧ b.delta = none) ∧
  (b.implicitChangeType = .removed → b.left.isSome ∧ b.right = none ∧ b.delta = none) ∧
  ((b.implicitChangeType = .unchanged ∨ b.implicitChangeType = .changed) →
    b.left.isSome ∧ b.right.isSome) ∧
  deltaKeysNodup b.delta

/-- Which branches an output record carries, as a function of its own
`changeType` and the implicit change type of the call that produced it:
at least one branch is always present; `added` records carry only the right
branch and `removed` records only the left; `unchanged`/`changed` records
carry both branches when the call is two-sided, and only the surviving side
inside an `added`/`removed` implicit branch. -/
def branchPresence (ict : ChangeType) (o : ObjectWithChange) : Prop :=
  (o.leftValue.isSome ∨ o.rightValue.isSome) ∧
  (o.changeType = .added → o.leftPath = none ∧ o.leftValue = none ∧
    o.rightPath.isSome ∧ o.rightValue.isSome) ∧
  (o.changeType = .removed → o.leftPath.isSome ∧ o.leftValue.isSome ∧
    o.rightPath = none ∧ o.rightValue = none) ∧
  ((o.changeType = .unchanged ∨ o.changeType = .changed) →
    ((ict = .unchanged ∨ ict = .changed) → o.leftValue.isSome ∧ o.rightValue.isSome) ∧
    (ict = .added → o.leftPath = none ∧ o.leftValue = none ∧ o.rightValue.isSome) ∧
    (ict = .removed → o.rightPath = none ∧ o.rightValue = none ∧ o.leftValue.isSome))

/-- Stage invariant for the delta loop of `propertiesWithChanges` in a
two-sided call, parametrised by the keys of the delta entries not yet
processed: provisional records are two-sided `unchanged`; a record promoted
away from `unchanged` was promoted by an already-consumed delta entry, so its
key no longer occurs among the remaining ones. -/
def SInv (rem : List String) (p : PropertyWithChange) : Prop :=
  (p.changeType = .unchanged → p.leftPath.isSome ∧ p.leftValue.isSome ∧
    p.rightPath.isSome) ∧
  (p.changeType = .changed → p.leftPath.isSome ∧ p.leftValue.isSome ∧
    p.rightPath.isSome ∧ p.rightValue.isSome ∧ p.objectKey ∉ rem) ∧
  (p.changeType = .removed → p.leftPath.isSome ∧ p.leftValue.isSome ∧
    p.rightPath = none ∧ p.rightValue = none ∧ p.objectKey ∉ rem) ∧
  (p.changeType = .added → p.leftPath = none ∧ p.leftValue = none ∧
    p.rightPath.isSome ∧ p.rightValue.isSome ∧ p.objectKey ∉ rem)

/-- Invariant of the removal pass in a two-sided sequence call: records are
`unchanged` (two-sided) or `removed` (left side only). -/
def RInvItem (it : ItemWithChange) : Prop :=
  (it.changeType = .unchanged ∨ it.changeType = .removed) ∧
  (it.changeType = .unchanged → it.leftPath.isSome ∧ it.leftValue.isSome ∧
    it.rightPath.isSome ∧ it.rightValue.isSome) ∧
  (it.changeType = .removed → it.leftPath.isSome ∧ it.leftValue.isSome ∧
    it.rightPath = none ∧ it.rightValue = none)

/-- Invariant of the insertion pass (and of the final output) in a two-sided
sequence call. -/
def IInvItem (it : ItemWithChange) : Prop :=
  it.changeType ≠ .changed ∧
  (it.changeType = .unchanged → it.leftPath.isSome ∧ it.leftValue.isSome ∧
    it.rightPath.isSome ∧ it.rightValue.isSome) ∧
  (it.changeType = .removed → it.leftPath.isSome ∧ it.leftValue.isSome ∧
    it.rightPath = none ∧ it.rightValue = none) ∧
  (it.changeType = .added → it.leftPath = none ∧ it.leftValue = none ∧
    it.rightPath.isSome)

/-- The record predicate of claim C5: `unchanged` with both branches. -/
def unchangedBoth (o : ObjectWithChange) : Bool :=
  o.changeType = ChangeType.unchanged && o.leftPath.isSome && o.leftValue.isSome &&
    o.rightPath.isSome && o.rightValue.isSome

/-- The state of a record while descending two identical documents: locally
`unchanged`, not inside any added/removed branch, no delta, both branches
present with the same (well-formed) value. -/
def GoodRec (o : ObjectWithChange) : Prop :=
  o.changeType = .unchanged ∧ o.implicitChangeType = .unchanged ∧ o.delta = none ∧
  ∃ lp rp v, o.leftPath = some lp ∧ o.rightPath = some rp ∧
    o.leftValue = some v ∧ o.rightValue = some v ∧ wfValue v = true

/-! ## Helper lemmas -/

@[simp] theorem error_bind {ε α β : Type _} (e : ε) (f : α → Except ε β) :
    (Except.error e : Except ε α) >>= f = .error e := rfl

@[simp] theorem ok_bind {ε α β : Type _} (a : α) (f : α → Except ε β) :
    (Except.ok a : Except ε α) >>= f = f a := rfl

/-- Successful runs of `propertiesWithChanges` decompose into their stages. -/
theorem propertiesWithChanges_ok_elim {b : BranchesWithChanges}
    {props : List PropertyWithChange} (h : propertiesWithChanges b = .ok props) :
    ∃ value mid, baseValue b = .ok value ∧
      propertiesDeltaStage b (basePropsOf b value) = .ok mid ∧
      props = shapeSplit b.implicitChangeType mid ∧
      checkProperties props = .ok () := by
  unfold propertiesWithChanges at h
  cases hv : baseValue b with
  | error e => rw [hv] at h; simp at h
  | ok value =>
    rw [hv] at h; simp only [ok_bind] at h
    cases hd : propertiesDeltaStage b (basePropsOf b value) with
    | error e => rw [hd] at h; simp at h
    | ok mid =>
      rw [hd] at h; simp only [ok_bind] at h
      cases hc : checkProperties (shapeSplit b.implicitChangeType mid) with
      | error e => rw [hc] at h; simp at h
      | ok u =>
        rw [hc] at h
        simp only [ok_bind, pure, Except.pure, Except.ok.injEq] at h
        subst h
        exact ⟨value, mid, rfl, hd, rfl, by cases u; exact hc⟩

/-- Successful runs of `itemsWithChanges` decompose into their stages. -/
theorem itemsWithChanges_ok_elim {b : BranchesWithChanges}
    {items : List ItemWithChange} (h : itemsWithChanges b = .ok items) :
    ∃ xs, baseValue b = .ok (.arr xs) ∧
      itemsDeltaStage b (baseItemsOf b xs) = .ok items ∧
      checkItems items = .ok () := by
  unfold itemsWithChanges at h
  cases hv : baseValue b with
  | error e => rw [hv] at h; simp at h
  | ok value =>
    rw [hv] at h; simp only [ok_bind] at h
    cases value with
    | leaf n => simp at h
    | obj kvs => simp at h
    | arr xs =>
      simp only [pure, Except.pure, ok_bind] at h
      cases hd : itemsDeltaStage b (baseItemsOf b xs) with
      | error e => rw [hd] at h; simp at h
      | ok mid =>
        rw [hd] at h; simp only [ok_bind] at h
        cases hc : checkItems mid with
        | error e => rw [hc] at h; simp at h
        | ok u =>
          rw [hc] at h
          simp only [ok_bind, pure, Except.pure, Except.ok.injEq] at h
          subst h
          exact ⟨xs, rfl, hd, by cases u; exact hc⟩

theorem checkProperties_ok_forall :
    ∀ {props : List PropertyWithChange}, checkProperties props = .ok () →
      ∀ p ∈ props, checkProperty p = .ok () := by
  intro props
  induction props with
  | nil => intro _ p hp; cases hp
  | cons q rest ih =>
    intro h p hp
    unfold checkProperties at h
    cases hq : checkProperty q with
    | error e => rw [hq] at h; simp at h
    | ok u =>
      rw [hq] at h; simp only [ok_bind] at h
      rcases List.mem_cons.mp hp with rfl | hp'
      · cases u; exact hq
      · exact ih h p hp'

theorem checkItems_ok_forall :
    ∀ {items : List ItemWithChange}, checkItems items = .ok () →
      ∀ it ∈ items, checkItem it = .ok () := by
  intro items
  induction items with
  | nil => intro _ it hit; cases hit
  | cons q rest ih =>
    intro h it hit
    unfold checkItems at h
    cases hq : checkItem q with
    | error e => rw [hq] at h; simp at h
    | ok u =>
      rw [hq] at h; simp only [ok_bind] at h
      rcases List.mem_cons.mp hit with rfl | hit'
      · cases u; exact hq
      · exact ih h it hit'

/-- The output assertions enforce that each path is carried exactly when the
matching value is. -/
theorem checkProperty_ok_pairing {p : PropertyWithChange}
    (h : checkProperty p = .ok ()) :
    (p.leftPath.isSome = p.leftValue.isSome) ∧
      (p.rightPath.isSome = p.rightValue.isSome) := by
  rcases p with ⟨⟨ict, ct, lp, lv, rp, rv, d⟩, key⟩
  cases lp <;> cases lv <;> cases rp <;> cases rv <;> simp_all [checkProperty]

theorem checkItem_ok_pairing {it : ItemWithChange}
    (h : checkItem it = .ok ()) :
    (it.leftPath.isSome = it.leftValue.isSome) ∧
      (it.rightPath.isSome = it.rightValue.isSome) := by
  rcases it with ⟨⟨ict, ct, lp, lv, rp, rv, d⟩, idx⟩
  cases lp <;> cases lv <;> cases rp <;> cases rv <;> simp_all [checkItem]

/-! ### Membership and preservation lemmas for the rewriting loop -/

theorem splitStep_mismatchCount {ict : ChangeType} :
    ∀ {props props' : List PropertyWithChange}, splitStep ict props = some props' →
      mismatchCount props' < mismatchCount props := by
  intro props
  induction props with
  | nil => intro props' h; simp [splitStep] at h
  | cons p rest ih =>
    intro props' h
    simp only [splitStep] at h
    by_cases hm : isShapeMismatched p
    · rw [if_pos hm] at h
      injection h with h
      subst h
      have hr : isShapeMismatched (splitRemovedHalf ict p) = false := rfl
      have ha : isShapeMismatched (splitAddedHalf ict p) = false := rfl
      simp [mismatchCount, List.filter_cons, hm, hr, ha, Nat.lt_succ_self]
    · rw [if_neg hm] at h
      rcases Option.map_eq_some'.mp h with ⟨ps, hps, hb⟩
      subst hb
      have := ih hps
      simp only [Bool.not_eq_true] at hm
      simpa [mismatchCount, List.filter_cons, hm] using this

theorem splitStep_none_forall {ict : ChangeType} :
    ∀ {props : List PropertyWithChange}, splitStep ict props = none →
      ∀ p ∈ props, isShapeMismatched p = false := by
  intro props
  induction props with
  | nil => intro _ p hp; cases hp
  | cons q rest ih =>
    intro h p hp
    simp only [splitStep] at h
    by_cases hm : isShapeMismatched q
    · rw [if_pos hm] at h; cases h
    · rw [if_neg hm] at h
      rcases List.mem_cons.mp hp with rfl | hp'
      · exact Bool.eq_false_iff.mpr hm
      · exact ih (Option.map_eq_none'.mp h) p hp'

theorem splitStep_mem {ict : ChangeType} :
    ∀ {props props' : List PropertyWithChange}, splitStep ict props = some props' →
      ∀ p ∈ props', p ∈ props ∨ ∃ q ∈ props, isShapeMismatched q = true ∧
        (p = splitRemovedHalf ict q ∨ p = splitAddedHalf ict q) := by
  intro props
  induction props with
  | nil => intro props' h; simp [splitStep] at h
  | cons q rest ih =>
    intro props' h p hp
    simp only [splitStep] at h
    by_cases hm : isShapeMismatched q
    · rw [if_pos hm] at h
      injection h with h
      subst h
      rcases List.mem_cons.mp hp with rfl | hp'
      · exact .inr ⟨q, List.mem_cons_self .., hm, .inl rfl⟩
      · rcases List.mem_cons.mp hp' with rfl | hp''
        · exact .inr ⟨q, List.mem_cons_self .., hm, .inr rfl⟩
        · exact .inl (List.mem_cons_of_mem q hp'')
    · rw [if_neg hm] at h
      rcases Option.map_eq_some'.mp h with ⟨ps, hps, hb⟩
      subst hb
      rcases List.mem_cons.mp hp with rfl | hp'
      · exact .inl (List.mem_cons_self ..)
      · rcases ih hps p hp' with h1 | ⟨q', hq', hmq', he⟩
        · exact .inl (List.mem_cons_of_mem q h1)
        · exact .inr ⟨q', List.mem_cons_of_mem q hq', hmq', he⟩

theorem shapeSplitAux_forall {P : PropertyWithChange → Prop} {ict : ChangeType}
    (hP : ∀ p, P p → isShapeMismatched p = true →
      P (splitRemovedHalf ict p) ∧ P (splitAddedHalf ict p)) :
    ∀ (n : Nat) (props : List PropertyWithChange), (∀ p ∈ props, P p) →
      ∀ p ∈ shapeSplitAux ict n props, P p := by
  intro n
  induction n with
  | zero => intro props hall p hp; exact hall p hp
  | succ n ih =>
    intro props hall p hp
    rw [shapeSplitAux] at hp
    cases hs : splitStep ict props with
    | none => rw [hs] at hp; exact hall p hp
    | some ps =>
      rw [hs] at hp
      refine ih ps ?_ p hp
      intro p' hp'
      rcases splitStep_mem hs p' hp' with h1 | ⟨q, hq, hmq, he⟩
      · exact hall p' h1
      · rcases he with rfl | rfl
        · exact (hP q (hall q hq) hmq).1
        · exact (hP q (hall q hq) hmq).2

theorem shapeSplit_forall {P : PropertyWithChange → Prop} {ict : ChangeType}
    (hP : ∀ p, P p → isShapeMismatched p = true →
      P (splitRemovedHalf ict p) ∧ P (splitAddedHalf ict p)) :
    ∀ (props : List PropertyWithChange), (∀ p ∈ props, P p) →
      ∀ p ∈ shapeSplit ict props, P p :=
  fun props => shapeSplitAux_forall hP (mismatchCount props) props

/-- The iteration budget suffices: no shape-mismatched `changed` record
survives the rewriting loop.  This is the termination statement of the
source's `while (changed)` loop. -/
theorem shapeSplit_no_mismatch {ict : ChangeType} :
    ∀ (props : List PropertyWithChange), ∀ p ∈ shapeSplit ict props,
      isShapeMismatched p = false := by
  have main : ∀ (n : Nat) (props : List PropertyWithChange), mismatchCount props ≤ n →
      ∀ p ∈ shapeSplitAux ict n props, isShapeMismatched p = false := by
    intro n
    induction n with
    | zero =>
      intro props hn p hp
      have h0 : mismatchCount props = 0 := Nat.le_zero.mp hn
      have : props.filter isShapeMismatched = [] :=
        List.length_eq_zero.mp h0
      have hnot := List.filter_eq_nil_iff.mp this
      exact Bool.eq_false_iff.mpr (hnot p hp)
    | succ n ih =>
      intro props hn p hp
      rw [shapeSplitAux] at hp
      cases hs : splitStep ict props with
      | none => rw [hs] at hp; exact splitStep_none_forall hs p hp
      | some ps =>
        rw [hs] at hp
        have hcnt := splitStep_mismatchCount hs
        exact ih ps (by omega) p hp
  intro props
  exact main (mismatchCount props) props le_rfl

/-! ### Membership and preservation lemmas for the delta loop -/

theorem updateProperty_mem {key : String} {f : PropertyWithChange → PropertyWithChange} :
    ∀ {props props' : List PropertyWithChange}, updateProperty key f props = some props' →
      ∀ p ∈ props', p ∈ props ∨ ∃ q ∈ props, q.objectKey = key ∧ p = f q := by
  intro props
  induction props with
  | nil => intro props' h; simp [updateProperty] at h
  | cons q rest ih =>
    intro props' h p hp
    simp only [updateProperty] at h
    by_cases hk : q.objectKey = key
    · rw [if_pos hk] at h
      injection h with h
      subst h
      rcases List.mem_cons.mp hp with rfl | hp'
      · exact .inr ⟨q, List.mem_cons_self .., hk, rfl⟩
      · exact .inl (List.mem_cons_of_mem q hp')
    · rw [if_neg hk] at h
      rcases Option.map_eq_some'.mp h with ⟨ps, hps, hb⟩
      subst hb
      rcases List.mem_cons.mp hp with rfl | hp'
      · exact .inl (List.mem_cons_self ..)
      · rcases ih hps p hp' with h1 | ⟨q', hq', hkq', he⟩
        · exact .inl (List.mem_cons_of_mem q h1)
        · exact .inr ⟨q', List.mem_cons_of_mem q hq', hkq', he⟩

theorem applyPropertyChange_forall {P : PropertyWithChange → Prop}
    {ict : ChangeType} {right : Option Branch}
    {props props' : List PropertyWithChange} {key : String} {change : Change}
    (h : applyPropertyChange ict right props key change = .ok props')
    (hall : ∀ p ∈ props, P p)
    (hadd : ∀ path rv, P (addedProperty ict key path rv))
    (hupd : ∀ q rv, q ∈ props → q.objectKey = key →
      P { q with rightValue := some rv, changeType := .changed })
    (hrem : ∀ q, q ∈ props → q.objectKey = key →
      P { q with changeType := .removed, rightValue := none, rightPath := none })
    (hdel : ∀ q d, q ∈ props → q.objectKey = key → P { q with delta := some d }) :
    ∀ p ∈ props', P p := by
  intro p hp
  have hviaUpd : ∀ (f : PropertyWithChange → PropertyWithChange),
      (∀ q, q ∈ props → q.objectKey = key → P (f q)) →
      updateProperty key f props = some props' → P p := by
    intro f hf hu
    rcases updateProperty_mem hu p hp with h1 | ⟨q, hq, hkq, rfl⟩
    · exact hall p h1
    · exact hf q hq hkq
  rcases change with es | es | ⟨rs, is⟩
  · match es, h with
    | [rv], h =>
      cases right with
      | none => exact Except.noConfusion h
      | some r =>
        injection h with h
        subst h
        rcases List.mem_append.mp hp with h1 | h2
        · exact hall p h1
        · rcases List.mem_singleton.mp h2 with rfl
          exact hadd _ _
    | [lv, rv], h =>
      have h' : (match updateProperty key
            (fun q => { q with rightValue := some rv, changeType := .changed }) props with
          | some ps => Except.ok ps
          | none => Except.error (propertyMissing key)) = Except.ok props' := h
      cases hu : updateProperty key
          (fun q => { q with rightValue := some rv, changeType := .changed }) props with
      | none => rw [hu] at h'; exact Except.noConfusion h'
      | some ps =>
        rw [hu] at h'
        injection h' with h'
        subst h'
        exact hviaUpd _ (fun q hq hkq => hupd q rv hq hkq) hu
    | [a, b2, c], h =>
      have h' : (match updateProperty key
            (fun q => { q with changeType := .removed, rightValue := none, rightPath := none })
            props with
          | some ps => Except.ok ps
          | none => Except.error (propertyMissing key)) = Except.ok props' := h
      cases hu : updateProperty key
          (fun q => { q with changeType := .removed, rightValue := none, rightPath := none })
          props with
      | none => rw [hu] at h'; exact Except.noConfusion h'
      | some ps =>
        rw [hu] at h'
        injection h' with h'
        subst h'
        exact hviaUpd _ (fun q hq hkq => hrem q hq hkq) hu
    | [], h => exact Except.noConfusion h
    | (a :: b2 :: c :: d :: rest), h => exact Except.noConfusion h
  · have h' : (match updateProperty key
        (fun q => { q with delta := some (Change.objDelta es) }) props with
      | some ps => Except.ok ps
      | none => Except.error (propertyMissing key)) = Except.ok props' := h
    cases hu : updateProperty key
        (fun q => { q with delta := some (Change.objDelta es) }) props with
    | none => rw [hu] at h'; exact Except.noConfusion h'
    | some ps =>
      rw [hu] at h'
      injection h' with h'
      subst h'
      exact hviaUpd _ (fun q hq hkq => hdel q _ hq hkq) hu
  · have h' : (match updateProperty key
        (fun q => { q with delta := some (Change.arrDelta rs is) }) props with
      | some ps => Except.ok ps
      | none => Except.error (propertyMissing key)) = Except.ok props' := h
    cases hu : updateProperty key
        (fun q => { q with delta := some (Change.arrDelta rs is) }) props with
    | none => rw [hu] at h'; exact Except.noConfusion h'
    | some ps =>
      rw [hu] at h'
      injection h' with h'
      subst h'
      exact hviaUpd _ (fun q hq hkq => hdel q _ hq hkq) hu

theorem applyPropertyDelta_forall {P : PropertyWithChange → Prop}
    {ict : ChangeType} {right : Option Branch}
    (hadd : ∀ key path rv, P (addedProperty ict key path rv))
    (hupd : ∀ q rv, P q → P { q with rightValue := some rv, changeType := .changed })
    (hrem : ∀ q, P q → P { q with changeType := .removed, rightValue := none, rightPath := none })
    (hdel : ∀ q d, P q → P { q with delta := some d }) :
    ∀ {entries : List (String × Change)} {props props' : List PropertyWithChange},
      applyPropertyDelta ict right props entries = .ok props' →
      (∀ p ∈ props, P p) → ∀ p ∈ props', P p := by
  intro entries
  induction entries with
  | nil =>
    intro props props' h hall
    unfold applyPropertyDelta at h
    injection h with h
    subst h
    exact hall
  | cons e rest ih =>
    intro props props' h hall
    unfold applyPropertyDelta at h
    cases hc : applyPropertyChange ict right props e.1 e.2 with
    | error err => rw [hc] at h; simp at h
    | ok mid =>
      rw [hc] at h; simp only [ok_bind] at h
      exact ih h (applyPropertyChange_forall hc hall (hadd e.1)
        (fun q rv hq _ => hupd q rv (hall q hq)) (fun q hq _ => hrem q (hall q hq))
        (fun q d hq _ => hdel q d (hall q hq)))

/-! ### Membership and preservation lemmas for the sequence passes -/

theorem foldlM_except_forall {α β : Type _} {f : β → α → Except String β}
    (Inv : β → Prop)
    (hf : ∀ s a s', Inv s → f s a = .ok s' → Inv s') :
    ∀ {l : List α} {s s' : β}, List.foldlM f s l = .ok s' → Inv s → Inv s' := by
  intro l
  induction l with
  | nil =>
    intro s s' h hs
    rw [List.foldlM_nil] at h
    injection h with h
    subst h
    exact hs
  | cons a l ih =>
    intro s s' h hs
    rw [List.foldlM_cons] at h
    cases hfa : f s a with
    | error e => rw [hfa] at h; simp at h
    | ok s1 =>
      rw [hfa] at h; simp only [ok_bind] at h
      exact ih h (hf _ _ _ hs hfa)

theorem removeItem_forall {P : ItemWithChange → Prop}
    (hrem : ∀ q, P q → P { q with changeType := .removed, rightValue := none, rightPath := none })
    (hdec : ∀ q, P q → P { q with index := q.index - 1 }) :
    ∀ {items : List ItemWithChange} {index : Nat} {items' : List ItemWithChange},
      removeItem items index = .ok items' →
      (∀ it ∈ items, P it) → ∀ it ∈ items', P it := by
  intro items index items' h hall it hit
  unfold removeItem at h
  split at h
  · injection h with h
    subst h
    rcases List.mem_map.mp hit with ⟨q, hq, rfl⟩
    have hq' : P q := by
      rcases List.mem_or_eq_of_mem_set hq with hq2 | rfl
      · exact hall _ hq2
      · exact hrem _ (hall _ (List.get_mem ..))
    by_cases hidx : index < q.index
    · simpa [hidx] using hdec _ hq'
    · simpa [hidx] using hq'
  · exact Except.noConfusion h

theorem insertItem_forall {P : ItemWithChange → Prop}
    {ict : ChangeType} {left right : Option Branch}
    {items : List ItemWithChange} {index : Nat} {change : Change}
    {items' : List ItemWithChange}
    (h : insertItem ict left right items index change = .ok items')
    (hall : ∀ it ∈ items, P it)
    (hinc : ∀ q, P q → P { q with index := q.index + 1 })
    (hnew : ∀ path rv, P (addedItem ict index path rv)) :
    ∀ it ∈ items', P it := by
  intro it hit
  rcases change with es | es | ⟨rs, is⟩
  · have h' : (if es.length = 3 then (Except.error "array moves are not supported" :
          Except String (List ItemWithChange))
        else if es.length = 2 then Except.error "array changes are not supported"
        else match right.orElse (fun _ => left) with
          | some br =>
            let shifted := items.map fun item =>
              if index ≤ item.index ∧ item.changeType ≠ ChangeType.removed then
                { item with index := item.index + 1 }
              else item
            Except.ok (shifted.take index ++
              addedItem ict index (br.path ++ [.idx index]) (es.get? 0) :: shifted.drop index)
          | none => Except.error "TypeError: right and left are undefined") =
        Except.ok items' := h
    split at h'
    · exact Except.noConfusion h'
    · split at h'
      · exact Except.noConfusion h'
      · cases hro : right.orElse (fun _ => left) with
        | none => rw [hro] at h'; exact Except.noConfusion h'
        | some br =>
          rw [hro] at h'
          simp only [Except.ok.injEq] at h'
          subst h'
          have hshifted : ∀ q ∈ items.map fun item =>
              if index ≤ item.index ∧ item.changeType ≠ ChangeType.removed then
                { item with index := item.index + 1 }
              else item, P q := by
            intro q hq
            rcases List.mem_map.mp hq with ⟨q0, hq0, rfl⟩
            by_cases hc : index ≤ q0.index ∧ q0.changeType ≠ ChangeType.removed
            · simpa [hc] using hinc _ (hall _ hq0)
            · simpa [hc] using hall _ hq0
          rcases List.mem_append.mp hit with h1 | h2
          · exact hshifted _ (List.mem_of_mem_take h1)
          · rcases List.mem_cons.mp h2 with rfl | h3
            · exact hnew _ _
            · exact hshifted _ (List.mem_of_mem_drop h3)
  · exact Except.noConfusion h
  · exact Except.noConfusion h

theorem itemsDeltaStage_forall {P : ItemWithChange → Prop}
    {b : BranchesWithChanges} {items items' : List ItemWithChange}
    (h : itemsDeltaStage b items = .ok items')
    (hall : ∀ it ∈ items, P it)
    (hrem : ∀ q, P q → P { q with changeType := .removed, rightValue := none, rightPath := none })
    (hdec : ∀ q, P q → P { q with index := q.index - 1 })
    (hinc : ∀ q, P q → P { q with index := q.index + 1 })
    (hnew : ∀ idx path rv, P (addedItem b.implicitChangeType idx path rv)) :
    ∀ it ∈ items', P it := by
  unfold itemsDeltaStage at h
  match hb : b.delta, h with
  | none, h =>
    injection h with h
    subst h
    exact hall
  | some (.arrDelta removals inserts), h =>
    have h' : (do
        let mid ← List.foldlM removeItem items removals
        List.foldlM (fun its e => insertItem b.implicitChangeType b.left b.right its e.1 e.2)
          mid inserts) = Except.ok items' := h
    cases hrm : removals.foldlM removeItem items with
    | error e => rw [hrm] at h'; simp at h'
    | ok mid =>
      rw [hrm] at h'; simp only [ok_bind] at h'
      have hmid : ∀ it ∈ mid, P it := by
        have := foldlM_except_forall (fun its => ∀ it ∈ its, P it)
          (fun s a s' hs hok => removeItem_forall hrem hdec hok hs) hrm hall
        exact this
      exact foldlM_except_forall (fun its => ∀ it ∈ its, P it)
        (fun s e s' hs hok => insertItem_forall hok hs hinc (hnew e.1)) h' hmid
  | some (.objDelta es), h => exact Except.noConfusion h
  | some (.entryList es), h => exact Except.noConfusion h

/-! ### Record-level facts lifted to whole runs -/

theorem propertiesWithChanges_forall {P : PropertyWithChange → Prop}
    {b : BranchesWithChanges} {props : List PropertyWithChange}
    (h : propertiesWithChanges b = .ok props)
    (hbase : ∀ k v, P (mkBaseProperty b.implicitChangeType b.left b.right k v))
    (hadd : ∀ key path rv, P (addedProperty b.implicitChangeType key path rv))
    (hupd : ∀ q rv, P q → P { q with rightValue := some rv, changeType := .changed })
    (hrem : ∀ q, P q → P { q with changeType := .removed, rightValue := none, rightPath := none })
    (hdel : ∀ q d, P q → P { q with delta := some d })
    (hsplit : ∀ p, P p → isShapeMismatched p = true →
      P (splitRemovedHalf b.implicitChangeType p) ∧ P (splitAddedHalf b.implicitChangeType p)) :
    ∀ p ∈ props, P p := by
  rcases propertiesWithChanges_ok_elim h with ⟨value, mid, hv, hd, hsp, hchk⟩
  subst hsp
  have hbase' : ∀ p ∈ basePropsOf b value, P p := by
    intro p hp
    rcases List.mem_map.mp hp with ⟨kv, _, rfl⟩
    exact hbase kv.1 kv.2
  have hmid : ∀ p ∈ mid, P p := by
    unfold propertiesDeltaStage at hd
    match hb : b.delta, hd with
    | none, hd =>
      injection hd with hd
      subst hd
      exact hbase'
    | some (.objDelta entries), hd =>
      exact applyPropertyDelta_forall hadd hupd hrem hdel hd hbase'
    | some (.arrDelta rs is), hd => exact Except.noConfusion hd
    | some (.entryList es), hd => exact Except.noConfusion hd
  exact shapeSplit_forall hsplit mid hmid

theorem itemsWithChanges_forall {P : ItemWithChange → Prop}
    {b : BranchesWithChanges} {items : List ItemWithChange}
    (h : itemsWithChanges b = .ok items)
    (hbase : ∀ i v, P (mkBaseItem b.implicitChangeType b.left b.right i v))
    (hrem : ∀ q, P q → P { q with changeType := .removed, rightValue := none, rightPath := none })
    (hdec : ∀ q, P q → P { q with index := q.index - 1 })
    (hinc : ∀ q, P q → P { q with index := q.index + 1 })
    (hnew : ∀ idx path rv, P (addedItem b.implicitChangeType idx path rv)) :
    ∀ it ∈ items, P it := by
  rcases itemsWithChanges_ok_elim h with ⟨xs, hv, hd, hchk⟩
  have hbase' : ∀ it ∈ baseItemsOf b xs, P it := by
    intro it hit
    rcases List.mem_map.mp hit with ⟨iv, _, rfl⟩
    exact hbase iv.1 iv.2
  exact itemsDeltaStage_forall hd hbase' hrem hdec hinc hnew

/-! ### The branch-presence invariant for two-sided calls -/

theorem SInv_mono {key : String} {rest : List String} {p : PropertyWithChange}
    (h : SInv (key :: rest) p) : SInv rest p := by
  obtain ⟨h1, h2, h3, h4⟩ := h
  refine ⟨h1, ?_, ?_, ?_⟩ <;> intro hc
  · obtain ⟨a, b2, c, d, e⟩ := h2 hc
    exact ⟨a, b2, c, d, fun hm => e (List.mem_cons_of_mem _ hm)⟩
  · obtain ⟨a, b2, c, d, e⟩ := h3 hc
    exact ⟨a, b2, c, d, fun hm => e (List.mem_cons_of_mem _ hm)⟩
  · obtain ⟨a, b2, c, d, e⟩ := h4 hc
    exact ⟨a, b2, c, d, fun hm => e (List.mem_cons_of_mem _ hm)⟩

theorem applyPropertyDelta_SInv {ict : ChangeType} {right : Option Branch} :
    ∀ {entries : List (String × Change)} {props props' : List PropertyWithChange},
      (entries.map Prod.fst).Nodup →
      applyPropertyDelta ict right props entries = .ok props' →
      (∀ p ∈ props, SInv (entries.map Prod.fst) p) →
      ∀ p ∈ props', SInv [] p := by
  intro entries
  induction entries with
  | nil =>
    intro props props' _ h hall
    unfold applyPropertyDelta at h
    injection h with h
    subst h
    exact hall
  | cons e rest ih =>
    intro props props' hnodup h hall
    have hnodup' : (e.1 :: rest.map Prod.fst).Nodup := by simpa using hnodup
    have hfresh : e.1 ∉ rest.map Prod.fst := (List.nodup_cons.mp hnodup').1
    unfold applyPropertyDelta at h
    cases hc : applyPropertyChange ict right props e.1 e.2 with
    | error err => rw [hc] at h; simp at h
    | ok mid =>
      rw [hc] at h; simp only [ok_bind] at h
      have hall' : ∀ p ∈ props, SInv (e.1 :: rest.map Prod.fst) p := by
        intro p hp
        simpa using hall p hp
      have htarget : ∀ q, q ∈ props → q.objectKey = e.1 → q.changeType = .unchanged ∧
          q.leftPath.isSome ∧ q.leftValue.isSome ∧ q.rightPath.isSome := by
        intro q hq hk
        obtain ⟨h1, h2, h3, h4⟩ := hall' q hq
        match hct : q.changeType with
        | .unchanged => exact ⟨rfl, h1 hct⟩
        | .changed =>
          exact absurd (by rw [hk]; exact List.mem_cons_self ..) (h2 hct).2.2.2.2
        | .removed =>
          exact absurd (by rw [hk]; exact List.mem_cons_self ..) (h3 hct).2.2.2.2
        | .added =>
          exact absurd (by rw [hk]; exact List.mem_cons_self ..) (h4 hct).2.2.2.2
      have hmid : ∀ p ∈ mid, SInv (rest.map Prod.fst) p := by
        refine applyPropertyChange_forall hc (fun p hp => SInv_mono (hall' p hp)) ?_ ?_ ?_ ?_
        · intro path rv
          refine ⟨?_, ?_, ?_, ?_⟩ <;> intro hct
          · exact absurd hct (by simp [addedProperty])
          · exact absurd hct (by simp [addedProperty])
          · exact absurd hct (by simp [addedProperty])
          · exact ⟨rfl, rfl, rfl, rfl, by simpa [addedProperty] using hfresh⟩
        · intro q rv hq hkq
          obtain ⟨hu, hlp, hlv, hrp⟩ := htarget q hq hkq
          refine ⟨?_, ?_, ?_, ?_⟩ <;> intro hct
          · exact absurd hct (by simp)
          · refine ⟨hlp, hlv, hrp, rfl, ?_⟩
            show q.objectKey ∉ rest.map Prod.fst
            rw [hkq]
            exact hfresh
          · exact absurd hct (by simp)
          · exact absurd hct (by simp)
        · intro q hq hkq
          obtain ⟨hu, hlp, hlv, hrp⟩ := htarget q hq hkq
          refine ⟨?_, ?_, ?_, ?_⟩ <;> intro hct
          · exact absurd hct (by simp)
          · exact absurd hct (by simp)
          · refine ⟨hlp, hlv, rfl, rfl, ?_⟩
            show q.objectKey ∉ rest.map Prod.fst
            rw [hkq]
            exact hfresh
          · exact absurd hct (by simp)
        · intro q d hq hkq
          obtain ⟨hu, hlp, hlv, hrp⟩ := htarget q hq hkq
          refine ⟨?_, ?_, ?_, ?_⟩ <;> intro hct <;> simp only at hct
          · exact ⟨hlp, hlv, hrp⟩
          · exact absurd (hct ▸ hu) (by simp)
          · exact absurd (hct ▸ hu) (by simp)
          · exact absurd (hct ▸ hu) (by simp)
      exact ih (List.nodup_cons.mp hnodup').2 h hmid

theorem propertiesDeltaStage_none {b : BranchesWithChanges}
    {props : List PropertyWithChange} (h : b.delta = none) :
    propertiesDeltaStage b props = .ok props := by
  unfold propertiesDeltaStage
  rw [h]

theorem itemsDeltaStage_none {b : BranchesWithChanges}
    {items : List ItemWithChange} (h : b.delta = none) :
    itemsDeltaStage b items = .ok items := by
  unfold itemsDeltaStage
  rw [h]

/-- In a two-sided call, every output record satisfies the processed
invariant together with the path/value pairing enforced by the output
assertions. -/
theorem propertiesWithChanges_SInv {b : BranchesWithChanges}
    {props : List PropertyWithChange} (h : propertiesWithChanges b = .ok props)
    {l r : Branch} (hl : b.left = some l) (hr : b.right = some r)
    (hnodup : deltaKeysNodup b.delta) :
    ∀ p ∈ props, SInv [] p ∧ (p.leftPath.isSome = p.leftValue.isSome) ∧
      (p.rightPath.isSome = p.rightValue.isSome) := by
  rcases propertiesWithChanges_ok_elim h with ⟨value, mid, hv, hd, hsp, hchk⟩
  subst hsp
  have hbase : ∀ rem (p : PropertyWithChange), p ∈ basePropsOf b value → SInv rem p := by
    intro rem p hp
    rcases List.mem_map.mp hp with ⟨kv, _, rfl⟩
    refine ⟨?_, ?_, ?_, ?_⟩ <;> intro hct
    · exact ⟨by simp [mkBaseProperty, childPath, hl], by simp [mkBaseProperty, childPath, hl],
        by simp [mkBaseProperty, childPath, hr]⟩
    · exact absurd hct (by simp [mkBaseProperty])
    · exact absurd hct (by simp [mkBaseProperty])
    · exact absurd hct (by simp [mkBaseProperty])
  have hmid : ∀ p ∈ mid, SInv [] p := by
    unfold propertiesDeltaStage at hd
    match hb : b.delta, hd with
    | none, hd =>
      injection hd with hd
      subst hd
      exact hbase []
    | some (.objDelta entries), hd =>
      have hnodup' : (entries.map Prod.fst).Nodup := by
        rw [hb] at hnodup
        exact hnodup
      exact applyPropertyDelta_SInv hnodup' hd (hbase _)
    | some (.arrDelta rs is), hd => exact Except.noConfusion hd
    | some (.entryList es), hd => exact Except.noConfusion hd
  have hout : ∀ p ∈ shapeSplit b.implicitChangeType mid, SInv [] p := by
    refine shapeSplit_forall ?_ mid hmid
    intro p hp hm
    have hch : p.changeType = .changed := by
      by_contra hc
      simp [isShapeMismatched, hc] at hm
    obtain ⟨hlp, hlv, hrp, hrv, _⟩ := hp.2.1 hch
    constructor
    · refine ⟨?_, ?_, ?_, ?_⟩ <;> intro hct
      · exact absurd hct (by simp [splitRemovedHalf])
      · exact absurd hct (by simp [splitRemovedHalf])
      · exact ⟨by simpa [splitRemovedHalf] using hlp, by simpa [splitRemovedHalf] using hlv,
          rfl, rfl, by simp⟩
      · exact absurd hct (by simp [splitRemovedHalf])
    · refine ⟨?_, ?_, ?_, ?_⟩ <;> intro hct
      · exact absurd hct (by simp [splitAddedHalf])
      · exact absurd hct (by simp [splitAddedHalf])
      · exact absurd hct (by simp [splitAddedHalf])
      · exact ⟨rfl, rfl, by simpa [splitAddedHalf] using hlp,
          by simpa [splitAddedHalf] using hrv, by simp⟩
  intro p hp
  have hpair := checkProperty_ok_pairing (checkProperties_ok_forall hchk p hp)
  exact ⟨hout p hp, hpair⟩

theorem branchPresence_of_SInv {ict : ChangeType} {p : PropertyWithChange}
    (hIct : ict = .unchanged ∨ ict = .changed)
    (hs : SInv [] p)
    (hpl : p.leftPath.isSome = p.leftValue.isSome)
    (hpr : p.rightPath.isSome = p.rightValue.isSome) :
    branchPresence ict p.toObjectWithChange := by
  obtain ⟨h1, h2, h3, h4⟩ := hs
  have hIctA : ict ≠ .added := by rcases hIct with rfl | rfl <;> simp
  have hIctR : ict ≠ .removed := by rcases hIct with rfl | rfl <;> simp
  match hct : p.changeType with
  | .unchanged =>
    obtain ⟨hlp, hlv, hrp⟩ := h1 hct
    have hrv : p.rightValue.isSome := by rw [← hpr]; exact hrp
    refine ⟨Or.inl hlv, ?_, ?_, ?_⟩
    · intro hc; rw [show (p.toObjectWithChange).changeType = p.changeType from rfl, hct] at hc
      exact absurd hc (by simp)
    · intro hc; rw [show (p.toObjectWithChange).changeType = p.changeType from rfl, hct] at hc
      exact absurd hc (by simp)
    · intro _
      exact ⟨fun _ => ⟨hlv, hrv⟩, fun ha => absurd ha hIctA, fun hr => absurd hr hIctR⟩
  | .changed =>
    obtain ⟨hlp, hlv, hrp, hrv, _⟩ := h2 hct
    refine ⟨Or.inl hlv, ?_, ?_, ?_⟩
    · intro hc; rw [show (p.toObjectWithChange).changeType = p.changeType from rfl, hct] at hc
      exact absurd hc (by simp)
    · intro hc; rw [show (p.toObjectWithChange).changeType = p.changeType from rfl, hct] at hc
      exact absurd hc (by simp)
    · intro _
      exact ⟨fun _ => ⟨hlv, hrv⟩, fun ha => absurd ha hIctA, fun hr => absurd hr hIctR⟩
  | .removed =>
    obtain ⟨hlp, hlv, hrp, hrv, _⟩ := h3 hct
    refine ⟨Or.inl hlv, ?_, ?_, ?_⟩
    · intro hc; rw [show (p.toObjectWithChange).changeType = p.changeType from rfl, hct] at hc
      exact absurd hc (by simp)
    · intro _
      exact ⟨hlp, hlv, hrp, hrv⟩
    · intro hc
      rw [show (p.toObjectWithChange).changeType = p.changeType from rfl, hct] at hc
      rcases hc with hc | hc <;> exact absurd hc (by simp)
  | .added =>
    obtain ⟨hlp, hlv, hrp, hrv, _⟩ := h4 hct
    refine ⟨Or.inr hrv, ?_, ?_, ?_⟩
    · intro _
      exact ⟨hlp, hlv, hrp, hrv⟩
    · intro hc; rw [show (p.toObjectWithChange).changeType = p.changeType from rfl, hct] at hc
      exact absurd hc (by simp)
    · intro hc
      rw [show (p.toObjectWithChange).changeType = p.changeType from rfl, hct] at hc
      rcases hc with hc | hc <;> exact absurd hc (by simp)

/-- The analogue of `propertiesWithChanges_SInv` for sequences: every record
of a successful two-sided run satisfies `IInvItem` and the path/value
pairing. -/
theorem itemsWithChanges_IInv {b : BranchesWithChanges}
    {items : List ItemWithChange} (h : itemsWithChanges b = .ok items)
    {l r : Branch} (hl : b.left = some l) (hr : b.right = some r) :
    ∀ it ∈ items, IInvItem it ∧ (it.leftPath.isSome = it.leftValue.isSome) ∧
      (it.rightPath.isSome = it.rightValue.isSome) := by
  rcases itemsWithChanges_ok_elim h with ⟨xs, hv, hd, hchk⟩
  have hbase : ∀ it ∈ baseItemsOf b xs, RInvItem it := by
    intro it hit
    rcases List.mem_map.mp hit with ⟨iv, _, rfl⟩
    refine ⟨Or.inl rfl, ?_, ?_⟩ <;> intro hct
    · exact ⟨by simp [mkBaseItem, childPath, hl], by simp [mkBaseItem, childPath, hl],
        by simp [mkBaseItem, childPath, hr], by simp [mkBaseItem, childPath, hr]⟩
    · exact absurd hct (by simp [mkBaseItem])
  have hRtoI : ∀ it, RInvItem it → IInvItem it := by
    rintro it ⟨hur, h1, h2⟩
    refine ⟨?_, h1, h2, ?_⟩
    · rcases hur with hc | hc <;> simp [hc]
    · intro hct
      rcases hur with hc | hc <;> rw [hct] at hc <;> exact absurd hc (by simp)
  have hout : ∀ it ∈ items, IInvItem it := by
    unfold itemsDeltaStage at hd
    match hb : b.delta, hd with
    | none, hd =>
      injection hd with hd
      subst hd
      exact fun it hit => hRtoI it (hbase it hit)
    | some (.arrDelta removals inserts), hd =>
      have hd' : (do
          let mid ← List.foldlM removeItem (baseItemsOf b xs) removals
          List.foldlM (fun its e => insertItem b.implicitChangeType b.left b.right its e.1 e.2)
            mid inserts) = Except.ok items := hd
      cases hrm : removals.foldlM removeItem (baseItemsOf b xs) with
      | error e => rw [hrm] at hd'; simp at hd'
      | ok mid =>
        rw [hrm] at hd'; simp only [ok_bind] at hd'
        have hremP : ∀ q, RInvItem q →
            RInvItem { q with changeType := .removed, rightValue := none, rightPath := none } := by
          rintro q ⟨hur, h1, h2⟩
          refine ⟨Or.inr rfl, ?_, ?_⟩ <;> intro hct
          · exact absurd hct (by simp)
          · rcases hur with hc | hc
            · obtain ⟨a1, a2, _, _⟩ := h1 hc
              exact ⟨a1, a2, rfl, rfl⟩
            · obtain ⟨a1, a2, _, _⟩ := h2 hc
              exact ⟨a1, a2, rfl, rfl⟩
        have hdecP : ∀ q, RInvItem q → RInvItem { q with index := q.index - 1 } := by
          rintro q ⟨hur, h1, h2⟩
          exact ⟨hur, h1, h2⟩
        have hmid : ∀ it ∈ mid, RInvItem it :=
          foldlM_except_forall (fun its => ∀ it ∈ its, RInvItem it)
            (fun s a s' hs hok => removeItem_forall hremP hdecP hok hs) hrm hbase
        have hincP : ∀ q, IInvItem q → IInvItem { q with index := q.index + 1 } := by
          rintro q ⟨h0, h1, h2, h3⟩
          exact ⟨h0, h1, h2, h3⟩
        have hnewP : ∀ idx path rv,
            IInvItem (addedItem b.implicitChangeType idx path rv) := by
          intro idx path rv
          refine ⟨by simp [addedItem], ?_, ?_, ?_⟩ <;> intro hct
          · exact absurd hct (by simp [addedItem])
          · exact absurd hct (by simp [addedItem])
          · exact ⟨rfl, rfl, rfl⟩
        exact foldlM_except_forall (fun its => ∀ it ∈ its, IInvItem it)
          (fun s e s' hs hok => insertItem_forall hok hs hincP (hnewP e.1)) hd'
          (fun it hit => hRtoI it (hmid it hit))
    | some (.objDelta es), hd => exact Except.noConfusion hd
    | some (.entryList es), hd => exact Except.noConfusion hd
  intro it hit
  have hpair := checkItem_ok_pairing (checkItems_ok_forall hchk it hit)
  exact ⟨hout it hit, hpair⟩

theorem branchPresence_of_IInv {ict : ChangeType} {it : ItemWithChange}
    (hIct : ict = .unchanged ∨ ict = .changed)
    (hi : IInvItem it)
    (hpr : it.rightPath.isSome = it.rightValue.isSome) :
    branchPresence ict it.toObjectWithChange := by
  obtain ⟨h0, h1, h2, h3⟩ := hi
  have hIctA : ict ≠ .added := by rcases hIct with rfl | rfl <;> simp
  have hIctR : ict ≠ .removed := by rcases hIct with rfl | rfl <;> simp
  match hct : it.changeType with
  | .unchanged =>
    obtain ⟨hlp, hlv, hrp, hrv⟩ := h1 hct
    refine ⟨Or.inl hlv, ?_, ?_, ?_⟩
    · intro hc; rw [show (it.toObjectWithChange).changeType = it.changeType from rfl, hct] at hc
      exact absurd hc (by simp)
    · intro hc; rw [show (it.toObjectWithChange).changeType = it.changeType from rfl, hct] at hc
      exact absurd hc (by simp)
    · intro _
      exact ⟨fun _ => ⟨hlv, hrv⟩, fun ha => absurd ha hIctA, fun hr => absurd hr hIctR⟩
  | .changed => exact absurd hct h0
  | .removed =>
    obtain ⟨hlp, hlv, hrp, hrv⟩ := h2 hct
    refine ⟨Or.inl hlv, ?_, ?_, ?_⟩
    · intro hc; rw [show (it.toObjectWithChange).changeType = it.changeType from rfl, hct] at hc
      exact absurd hc (by simp)
    · intro _
      exact ⟨hlp, hlv, hrp, hrv⟩
    · intro hc
      rw [show (it.toObjectWithChange).changeType = it.changeType from rfl, hct] at hc
      rcases hc with hc | hc <;> exact absurd hc (by simp)
  | .added =>
    obtain ⟨hlp, hlv, hrp⟩ := h3 hct
    have hrv : it.rightValue.isSome := by rw [← hpr]; exact hrp
    refine ⟨Or.inr hrv, ?_, ?_, ?_⟩
    · intro _
      exact ⟨hlp, hlv, hrp, hrv⟩
    · intro hc; rw [show (it.toObjectWithChange).changeType = it.changeType from rfl, hct] at hc
      exact absurd hc (by simp)
    · intro hc
      rw [show (it.toObjectWithChange).changeType = it.changeType from rfl, hct] at hc
      rcases hc with hc | hc <;> exact absurd hc (by simp)

/-- A successful one-sided (implicitly `added`) mapping call yields only
two-sided-free records: `unchanged`, right branch only. -/
theorem propertiesWithChanges_oneSided_added {b : BranchesWithChanges}
    {props : List PropertyWithChange} (h : propertiesWithChanges b = .ok props)
    (hleft : b.left = none) (hdelta : b.delta = none) :
    ∀ p ∈ props, p.changeType = .unchanged ∧ p.leftPath = none ∧ p.leftValue = none ∧
      p.rightPath.isSome ∧ p.rightValue.isSome := by
  rcases propertiesWithChanges_ok_elim h with ⟨value, mid, hv, hd, hsp, hchk⟩
  subst hsp
  rw [propertiesDeltaStage_none hdelta] at hd
  injection hd with hd
  subst hd
  have hr : b.right.isSome := by
    unfold baseValue at hv
    match hict : b.implicitChangeType, hv with
    | .added, hv =>
      cases hb : b.right with
      | none => rw [hb] at hv; exact Except.noConfusion hv
      | some r => simp [hb]
    | .unchanged, hv | .changed, hv | .removed, hv =>
      rw [hleft] at hv
      exact Except.noConfusion hv
  obtain ⟨r, hr⟩ := Option.isSome_iff_exists.mp hr
  have hP : ∀ p ∈ basePropsOf b value, p.changeType = .unchanged ∧ p.leftPath = none ∧
      p.leftValue = none ∧ p.rightPath.isSome := by
    intro p hp
    rcases List.mem_map.mp hp with ⟨kv, _, rfl⟩
    exact ⟨rfl, by simp [mkBaseProperty, childPath, hleft],
      by simp [mkBaseProperty, childPath, hleft], by simp [mkBaseProperty, childPath, hr]⟩
  have hout : ∀ p ∈ shapeSplit b.implicitChangeType (basePropsOf b value),
      p.changeType = .unchanged ∧ p.leftPath = none ∧ p.leftValue = none ∧
        p.rightPath.isSome := by
    refine shapeSplit_forall ?_ _ hP
    intro p hp hm
    rw [isShapeMismatched, hp.1] at hm
    simp at hm
  intro p hp
  obtain ⟨h1, h2, h3, h4⟩ := hout p hp
  have hpair := (checkProperty_ok_pairing (checkProperties_ok_forall hchk p hp)).2
  exact ⟨h1, h2, h3, h4, by rw [← hpair]; exact h4⟩

/-- A successful one-sided (implicitly `removed`) mapping call yields only
`unchanged` records carrying the left branch only. -/
theorem propertiesWithChanges_oneSided_removed {b : BranchesWithChanges}
    {props : List PropertyWithChange} (h : propertiesWithChanges b = .ok props)
    (hict : b.implicitChangeType = .removed) (hright : b.right = none)
    (hdelta : b.delta = none) :
    ∀ p ∈ props, p.changeType = .unchanged ∧ p.rightPath = none ∧ p.rightValue = none ∧
      p.leftPath.isSome ∧ p.leftValue.isSome := by
  rcases propertiesWithChanges_ok_elim h with ⟨value, mid, hv, hd, hsp, hchk⟩
  subst hsp
  rw [propertiesDeltaStage_none hdelta] at hd
  injection hd with hd
  subst hd
  have hl : b.left.isSome := by
    unfold baseValue at hv
    rw [hict] at hv
    cases hb : b.left with
    | none => rw [hb] at hv; exact Except.noConfusion hv
    | some l => simp [hb]
  obtain ⟨l, hl⟩ := Option.isSome_iff_exists.mp hl
  have hP : ∀ p ∈ basePropsOf b value, p.changeType = .unchanged ∧ p.rightPath = none ∧
      p.rightValue = none ∧ p.leftPath.isSome ∧ p.leftValue.isSome := by
    intro p hp
    rcases List.mem_map.mp hp with ⟨kv, _, rfl⟩
    exact ⟨rfl, by simp [mkBaseProperty, childPath, hright],
      by simp [mkBaseProperty, childPath, hright],
      by simp [mkBaseProperty, childPath, hl], by simp [mkBaseProperty, childPath, hl]⟩
  have hout : ∀ p ∈ shapeSplit b.implicitChangeType (basePropsOf b value),
      p.changeType = .unchanged ∧ p.rightPath = none ∧ p.rightValue = none ∧
        p.leftPath.isSome ∧ p.leftValue.isSome := by
    refine shapeSplit_forall ?_ _ hP
    intro p hp hm
    rw [isShapeMismatched, hp.1] at hm
    simp at hm
  exact fun p hp => hout p hp

/-- A successful one-sided (implicitly `added`) sequence call yields only
`unchanged` records with the right branch only. -/
theorem itemsWithChanges_oneSided_added {b : BranchesWithChanges}
    {items : List ItemWithChange} (h : itemsWithChanges b = .ok items)
    (hleft : b.left = none) (hdelta : b.delta = none) :
    ∀ it ∈ items, it.changeType = .unchanged ∧ it.leftPath = none ∧ it.leftValue = none ∧
      it.rightPath.isSome ∧ it.rightValue.isSome := by
  rcases itemsWithChanges_ok_elim h with ⟨xs, hv, hd, hchk⟩
  rw [itemsDeltaStage_none hdelta] at hd
  injection hd with hd
  subst hd
  have hr : b.right.isSome := by
    unfold baseValue at hv
    match hict : b.implicitChangeType, hv with
    | .added, hv =>
      cases hb : b.right with
      | none => rw [hb] at hv; exact Except.noConfusion hv
      | some r => simp [hb]
    | .unchanged, hv | .changed, hv | .removed, hv =>
      rw [hleft] at hv
      exact Except.noConfusion hv
  obtain ⟨r, hr⟩ := Option.isSome_iff_exists.mp hr
  intro it hit
  rcases List.mem_map.mp hit with ⟨iv, _, rfl⟩
  exact ⟨rfl, by simp [mkBaseItem, childPath, hleft], by simp [mkBaseItem, childPath, hleft],
    by simp [mkBaseItem, childPath, hr], by simp [mkBaseItem, childPath, hr]⟩

/-- A successful one-sided (implicitly `removed`) sequence call yields only
`unchanged` records with the left branch only. -/
theorem itemsWithChanges_oneSided_removed {b : BranchesWithChanges}
    {items : List ItemWithChange} (h : itemsWithChanges b = .ok items)
    (hict : b.implicitChangeType = .removed) (hright : b.right = none)
    (hdelta : b.delta = none) :
    ∀ it ∈ items, it.changeType = .unchanged ∧ it.rightPath = none ∧ it.rightValue = none ∧
      it.leftPath.isSome ∧ it.leftValue.isSome := by
  rcases itemsWithChanges_ok_elim h with ⟨xs, hv, hd, hchk⟩
  rw [itemsDeltaStage_none hdelta] at hd
  injection hd with hd
  subst hd
  have hl : b.left.isSome := by
    unfold baseValue at hv
    rw [hict] at hv
    cases hb : b.left with
    | none => rw [hb] at hv; exact Except.noConfusion hv
    | some l => simp [hb]
  obtain ⟨l, hl⟩ := Option.isSome_iff_exists.mp hl
  intro it hit
  rcases List.mem_map.mp hit with ⟨iv, _, rfl⟩
  exact ⟨rfl, by simp [mkBaseItem, childPath, hright], by simp [mkBaseItem, childPath, hright],
    by simp [mkBaseItem, childPath, hl], by simp [mkBaseItem, childPath, hl]⟩

theorem updateProperty_none {key : String} {f : PropertyWithChange → PropertyWithChange} :
    ∀ {props : List PropertyWithChange}, (∀ p ∈ props, p.objectKey ≠ key) →
      updateProperty key f props = none := by
  intro props
  induction props with
  | nil => intro _; rfl
  | cons p rest ih =>
    intro hall
    rw [updateProperty, if_neg (hall p (List.mem_cons_self ..)),
      ih (fun q hq => hall q (List.mem_cons_of_mem p hq))]
    rfl

/-- `updateProperty` rewrites exactly the first record whose key matches. -/
theorem updateProperty_eq_set {key : String} (f : PropertyWithChange → PropertyWithChange) :
    ∀ {props : List PropertyWithChange}
      (hi : props.findIdx (fun p => p.objectKey == key) < props.length),
      updateProperty key f props =
        some (props.set (props.findIdx (fun p => p.objectKey == key))
          (f (props.get ⟨props.findIdx (fun p => p.objectKey == key), hi⟩))) := by
  intro props
  induction props with
  | nil => intro hi; simp at hi
  | cons p rest ih =>
    intro hi
    by_cases hk : p.objectKey = key
    · have hbeq : (p.objectKey == key) = true := beq_iff_eq.mpr hk
      have hfi : (p :: rest).findIdx (fun q => q.objectKey == key) = 0 := by
        simp [List.findIdx_cons, hbeq]
      rw [updateProperty, if_pos hk]
      simp [hfi]
    · have hbeq : (p.objectKey == key) = false := beq_eq_false_iff_ne.mpr hk
      have hfi : (p :: rest).findIdx (fun q => q.objectKey == key) =
          rest.findIdx (fun q => q.objectKey == key) + 1 := by
        simp [List.findIdx_cons, hbeq]
      have hi' : rest.findIdx (fun q => q.objectKey == key) < rest.length := by
        rw [hfi] at hi
        simp only [List.length_cons] at hi
        omega
      rw [updateProperty, if_neg hk, ih hi']
      have hget : (p :: rest).get ⟨(p :: rest).findIdx (fun q => q.objectKey == key), hi⟩ =
          rest.get ⟨rest.findIdx (fun q => q.objectKey == key), hi'⟩ := by
        simp [hfi]
      rw [hget]
      simp [hfi]

theorem checkProperties_ok_of_forall :
    ∀ {props : List PropertyWithChange}, (∀ p ∈ props, checkProperty p = .ok ()) →
      checkProperties props = .ok () := by
  intro props
  induction props with
  | nil => intro _; rfl
  | cons p rest ih =>
    intro hall
    unfold checkProperties
    rw [hall p (List.mem_cons_self ..)]
    simp only [ok_bind]
    exact ih fun q hq => hall q (List.mem_cons_of_mem p hq)

theorem checkItems_ok_of_forall :
    ∀ {items : List ItemWithChange}, (∀ it ∈ items, checkItem it = .ok ()) →
      checkItems items = .ok () := by
  intro items
  induction items with
  | nil => intro _; rfl
  | cons it rest ih =>
    intro hall
    unfold checkItems
    rw [hall it (List.mem_cons_self ..)]
    simp only [ok_bind]
    exact ih fun q hq => hall q (List.mem_cons_of_mem it hq)

/-! ## The claims -/

/-- C4, counterexample: descending into a removed branch (left side only, no
delta, implicit change type `removed` — exactly the call the descent makes
for a `removed` record, e.g. when building `{a: {b: 1}}` against `{}`),
`propertiesWithChanges` returns a record whose `changeType` is `unchanged`
but which carries only a left branch, contradicting the claim that records
with `changeType` `unchanged` carry both branches. -/
theorem unchanged_record_with_single_branch :
    propertiesWithChanges
      { left := some ⟨[.key "a"], .obj [("b", .leaf 1)]⟩, right := none,
        delta := none, implicitChangeType := .removed } =
      .ok [⟨⟨.removed, .unchanged, some [.key "a", .key "b"], some (.leaf 1),
        none, none, none⟩, "b"⟩] ∧
    (⟨⟨.removed, .unchanged, some [.key "a", .key "b"], some (.leaf 1),
        none, none, none⟩, "b"⟩ : PropertyWithChange).changeType = .unchanged ∧
    (⟨⟨.removed, .unchanged, some [.key "a", .key "b"], some (.leaf 1),
        none, none, none⟩, "b"⟩ : PropertyWithChange).rightPath = none ∧
    (⟨⟨.removed, .unchanged, some [.key "a", .key "b"], some (.leaf 1),
        none, none, none⟩, "b"⟩ : PropertyWithChange).rightValue = none :=
  ⟨rfl, rfl, rfl, rfl⟩

/-- C4 (amended): for every call the recursive descent actually makes
(`WfCall`), every record produced by `propertiesWithChanges` or
`itemsWithChanges` carries at least one branch; `added` records carry only
the right branch and `removed` records only the left; records classified
`unchanged`/`changed` carry both branches in a two-sided call, and only the
surviving side inside an `added`/`removed` implicit branch (the amendment the
counterexample forces). -/
theorem branch_presence_invariant :
    (∀ (b : BranchesWithChanges) (props : List PropertyWithChange),
      WfCall b → propertiesWithChanges b = .ok props →
      ∀ p ∈ props, branchPresence b.implicitChangeType p.toObjectWithChange) ∧
    (∀ (b : BranchesWithChanges) (items : List ItemWithChange),
      WfCall b → itemsWithChanges b = .ok items →
      ∀ it ∈ items, branchPresence b.implicitChangeType it.toObjectWithChange) := by
  constructor
  · intro b props hwf h p hp
    obtain ⟨hwfA, hwfR, hwfUC, hwfD⟩ := hwf
    match hict : b.implicitChangeType with
    | .unchanged =>
      obtain ⟨hlS, hrS⟩ := hwfUC (Or.inl hict)
      obtain ⟨l, hl⟩ := Option.isSome_iff_exists.mp hlS
      obtain ⟨r, hr⟩ := Option.isSome_iff_exists.mp hrS
      obtain ⟨hs, hpl, hpr⟩ := propertiesWithChanges_SInv h hl hr hwfD p hp
      exact branchPresence_of_SInv (Or.inl rfl) hs hpl hpr
    | .changed =>
      obtain ⟨hlS, hrS⟩ := hwfUC (Or.inr hict)
      obtain ⟨l, hl⟩ := Option.isSome_iff_exists.mp hlS
      obtain ⟨r, hr⟩ := Option.isSome_iff_exists.mp hrS
      obtain ⟨hs, hpl, hpr⟩ := propertiesWithChanges_SInv h hl hr hwfD p hp
      exact branchPresence_of_SInv (Or.inr rfl) hs hpl hpr
    | .added =>
      obtain ⟨hleft, hrS, hdelta⟩ := hwfA hict
      obtain ⟨h1, h2, h3, h4, h5⟩ := propertiesWithChanges_oneSided_added h hleft hdelta p hp
      refine ⟨Or.inr h5, ?_, ?_, ?_⟩
      · intro hc
        rw [show (p.toObjectWithChange).changeType = p.changeType from rfl, h1] at hc
        exact absurd hc (by simp)
      · intro hc
        rw [show (p.toObjectWithChange).changeType = p.changeType from rfl, h1] at hc
        exact absurd hc (by simp)
      · intro _
        refine ⟨?_, fun _ => ⟨h2, h3, h5⟩, ?_⟩
        · rintro (hc | hc) <;> exact absurd hc (by simp)
        · intro hc
          exact absurd hc (by simp)
    | .removed =>
      obtain ⟨hlS, hright, hdelta⟩ := hwfR hict
      obtain ⟨h1, h2, h3, h4, h5⟩ := propertiesWithChanges_oneSided_removed h hict hright hdelta p hp
      refine ⟨Or.inl h5, ?_, ?_, ?_⟩
      · intro hc
        rw [show (p.toObjectWithChange).changeType = p.changeType from rfl, h1] at hc
        exact absurd hc (by simp)
      · intro hc
        rw [show (p.toObjectWithChange).changeType = p.changeType from rfl, h1] at hc
        exact absurd hc (by simp)
      · intro _
        refine ⟨?_, ?_, fun _ => ⟨h2, h3, h5⟩⟩
        · rintro (hc | hc) <;> exact absurd hc (by simp)
        · intro hc
          exact absurd hc (by simp)
  · intro b items hwf h it hit
    obtain ⟨hwfA, hwfR, hwfUC, hwfD⟩ := hwf
    match hict : b.implicitChangeType with
    | .unchanged =>
      obtain ⟨hlS, hrS⟩ := hwfUC (Or.inl hict)
      obtain ⟨l, hl⟩ := Option.isSome_iff_exists.mp hlS
      obtain ⟨r, hr⟩ := Option.isSome_iff_exists.mp hrS
      obtain ⟨hi, hpl, hpr⟩ := itemsWithChanges_IInv h hl hr it hit
      exact branchPresence_of_IInv (Or.inl rfl) hi hpr
    | .changed =>
      obtain ⟨hlS, hrS⟩ := hwfUC (Or.inr hict)
      obtain ⟨l, hl⟩ := Option.isSome_iff_exists.mp hlS
      obtain ⟨r, hr⟩ := Option.isSome_iff_exists.mp hrS
      obtain ⟨hi, hpl, hpr⟩ := itemsWithChanges_IInv h hl hr it hit
      exact branchPresence_of_IInv (Or.inr rfl) hi hpr
    | .added =>
      obtain ⟨hleft, hrS, hdelta⟩ := hwfA hict
      obtain ⟨h1, h2, h3, h4, h5⟩ := itemsWithChanges_oneSided_added h hleft hdelta it hit
      refine ⟨Or.inr h5, ?_, ?_, ?_⟩
      · intro hc
        rw [show (it.toObjectWithChange).changeType = it.changeType from rfl, h1] at hc
        exact absurd hc (by simp)
      · intro hc
        rw [show (it.toObjectWithChange).changeType = it.changeType from rfl, h1] at hc
        exact absurd hc (by simp)
      · intro _
        refine ⟨?_, fun _ => ⟨h2, h3, h5⟩, ?_⟩
        · rintro (hc | hc) <;> exact absurd hc (by simp)
        · intro hc
          exact absurd hc (by simp)
    | .removed =>
      obtain ⟨hlS, hright, hdelta⟩ := hwfR hict
      obtain ⟨h1, h2, h3, h4, h5⟩ := itemsWithChanges_oneSided_removed h hict hright hdelta it hit
      refine ⟨Or.inl h5, ?_, ?_, ?_⟩
      · intro hc
        rw [show (it.toObjectWithChange).changeType = it.changeType from rfl, h1] at hc
        exact absurd hc (by simp)
      · intro hc
        rw [show (it.toObjectWithChange).changeType = it.changeType from rfl, h1] at hc
        exact absurd hc (by simp)
      · intro _
        refine ⟨?_, ?_, fun _ => ⟨h2, h3, h5⟩⟩
        · rintro (hc | hc) <;> exact absurd hc (by simp)
        · intro hc
          exact absurd hc (by simp)

/-- Witness for the amended C4 at a concrete two-sided call with one update
entry. -/
theorem branch_presence_invariant_witness :
    WfCall
      { left := some ⟨[], .obj [("k", .leaf 1)]⟩,
        right := some ⟨[], .obj [("k", .leaf 2)]⟩,
        delta := some (.objDelta [("k", .entryList [.leaf 1, .leaf 2])]),
        implicitChangeType := .unchanged } ∧
    ∀ p ∈ [(⟨⟨.unchanged, .changed, some [.key "k"], some (.leaf 1),
        some [.key "k"], some (.leaf 2), none⟩, "k"⟩ : PropertyWithChange)],
      branchPresence ChangeType.unchanged p.toObjectWithChange := by
  have hwf : WfCall
      { left := some ⟨[], .obj [("k", .leaf 1)]⟩,
        right := some ⟨[], .obj [("k", .leaf 2)]⟩,
        delta := some (.objDelta [("k", .entryList [.leaf 1, .leaf 2])]),
        implicitChangeType := .unchanged } := by
    refine ⟨?_, ?_, ?_, ?_⟩ <;> simp [deltaKeysNodup]
  exact ⟨hwf, branch_presence_invariant.1 _ _ hwf rfl⟩

/-- C1: in every successful run of `propertiesWithChanges` every `changed`
record has left and right values of the same shape (two-sided calls with
unique delta keys, i.e. every call the descent makes on a `changed` or
`unchanged` branch), any mismatched `changed` record having been replaced by
a `removed`/`added` pair — the rewriting loop always terminates, which the
total function `shapeSplit` together with `shapeSplit_no_mismatch`
establishes.  In particular for before `{k: 1}` and after `{k: {a: 1}}` the
result for key `k` is exactly the adjacent pair `removed` (left value `1`)
then `added` (right value `{a: 1}`), never a single `changed` record. -/
theorem changed_records_shapes_agree :
    (∀ (b : BranchesWithChanges) (props : List PropertyWithChange) (l r : Branch),
      b.left = some l → b.right = some r → deltaKeysNodup b.delta →
      propertiesWithChanges b = .ok props →
      ∀ p ∈ props, p.changeType = .changed →
        ∃ lv rv, p.leftValue = some lv ∧ p.rightValue = some rv ∧
          getValueShape lv = getValueShape rv) ∧
    propertiesWithChanges
      { left := some ⟨[], .obj [("k", .leaf 1)]⟩,
        right := some ⟨[], .obj [("k", .obj [("a", .leaf 1)])]⟩,
        delta := some (.objDelta [("k", .entryList [.leaf 1, .obj [("a", .leaf 1)]])]),
        implicitChangeType := .unchanged } =
      .ok [⟨⟨.unchanged, .removed, some [.key "k"], some (.leaf 1), none, none, none⟩, "k"⟩,
           ⟨⟨.unchanged, .added, none, none, some [.key "k"],
             some (.obj [("a", .leaf 1)]), none⟩, "k"⟩] := by
  constructor
  · intro b props l r hl hr hnodup h p hp hch
    obtain ⟨hs, _, _⟩ := propertiesWithChanges_SInv h hl hr hnodup p hp
    obtain ⟨hlp, hlv, hrp, hrv, _⟩ := hs.2.1 hch
    obtain ⟨lv, hlv'⟩ := Option.isSome_iff_exists.mp hlv
    obtain ⟨rv, hrv'⟩ := Option.isSome_iff_exists.mp hrv
    refine ⟨lv, rv, hlv', hrv', ?_⟩
    rcases propertiesWithChanges_ok_elim h with ⟨value, mid, _, _, hsp, _⟩
    subst hsp
    have hmm := shapeSplit_no_mismatch mid p hp
    rw [isShapeMismatched, hch] at hmm
    simp at hmm
    rw [hlv', hrv'] at hmm
    simpa [getValueShapeO] using hmm
  · rfl

/-- Witness for C1's universally quantified part: the shape-agreement
property evaluated on a concrete two-sided call whose output does contain a
`changed` record. -/
theorem changed_records_shapes_agree_witness :
    ∀ p ∈ [(⟨⟨.unchanged, .changed, some [.key "k"], some (.leaf 1),
        some [.key "k"], some (.leaf 2), none⟩, "k"⟩ : PropertyWithChange)],
      p.changeType = .changed →
        ∃ lv rv, p.leftValue = some lv ∧ p.rightValue = some rv ∧
          getValueShape lv = getValueShape rv :=
  changed_records_shapes_agree.1
    { left := some ⟨[], .obj [("k", .leaf 1)]⟩,
      right := some ⟨[], .obj [("k", .leaf 2)]⟩,
      delta := some (.objDelta [("k", .entryList [.leaf 1, .leaf 2])]),
      implicitChangeType := .unchanged }
    _ _ _ rfl rfl (by simp [deltaKeysNodup]) rfl

/-- C6: `itemsWithChanges` never classifies a record `changed`, and both a
2-element entry (same-slot replacement) and a 3-element entry (array move)
at a sequence index are fatal: the call throws instead of returning a
list. -/
theorem sequence_items_never_changed :
    (∀ (b : BranchesWithChanges) (items : List ItemWithChange),
      itemsWithChanges b = .ok items → ∀ it ∈ items, it.changeType ≠ .changed) ∧
    itemsWithChanges
      { left := some ⟨[], .arr [.leaf 1]⟩, right := some ⟨[], .arr [.leaf 2]⟩,
        delta := some (.arrDelta [] [(0, .entryList [.leaf 1, .leaf 2])]),
        implicitChangeType := .unchanged } = .error "array changes are not supported" ∧
    itemsWithChanges
      { left := some ⟨[], .arr [.leaf 1]⟩, right := some ⟨[], .arr [.leaf 2]⟩,
        delta := some (.arrDelta [] [(0, .entryList [.leaf 1, .leaf 0, .leaf 0])]),
        implicitChangeType := .unchanged } = .error "array moves are not supported" := by
  refine ⟨?_, rfl, rfl⟩
  intro b items h
  refine itemsWithChanges_forall h ?_ ?_ ?_ ?_ ?_
  · intro i v
    simp [mkBaseItem]
  · intro q _
    simp
  · intro q hq
    exact hq
  · intro q hq
    exact hq
  · intro idx path rv
    simp [addedItem]

/-- Witness for C6's universally quantified part, evaluated on the sequence
insertion example (before `[[1]]`, after `[[1],[2]]`). -/
theorem sequence_items_never_changed_witness :
    ∀ it ∈ [(⟨⟨.unchanged, .unchanged, some [.idx 0], some (.arr [.leaf 1]),
          some [.idx 0], some (.arr [.leaf 1]), none⟩, 0⟩ : ItemWithChange),
        ⟨⟨.unchanged, .added, none, none, some [.idx 1],
          some (.arr [.leaf 2]), none⟩, 1⟩],
      it.changeType ≠ .changed :=
  sequence_items_never_changed.1
    { left := some ⟨[], .arr [.arr [.leaf 1]]⟩,
      right := some ⟨[], .arr [.arr [.leaf 1], .arr [.leaf 2]]⟩,
      delta := some (.arrDelta [] [(1, .entryList [.arr [.leaf 2]])]),
      implicitChangeType := .unchanged } _ rfl

/-- C10: the list `itemsWithChanges` returns is not sorted by final index
among its non-removed records: with before `[1, 2]` and after `[2, 3]`
(deletion marker at original index 0 followed by an insertion at final index
1) the `added` record sits at list position 1 while the `unchanged` record
with the strictly smaller index 0 follows it at position 2, because removed
records stay at their original list positions and the splice position counts
them. -/
theorem added_record_before_smaller_index :
    ∃ (b : BranchesWithChanges) (items : List ItemWithChange)
      (i j : Nat) (iti itj : ItemWithChange),
      itemsWithChanges b = .ok items ∧
      items[i]? = some iti ∧ items[j]? = some itj ∧ i < j ∧
      iti.changeType = .added ∧ itj.changeType ≠ .removed ∧ itj.index < iti.index := by
  refine ⟨{ left := some ⟨[], .arr [.leaf 1, .leaf 2]⟩,
            right := some ⟨[], .arr [.leaf 2, .leaf 3]⟩,
            delta := some (.arrDelta [0] [(1, .entryList [.leaf 3])]),
            implicitChangeType := .unchanged },
    [⟨⟨.unchanged, .removed, some [.idx 0], some (.leaf 1), none, none, none⟩, 0⟩,
     ⟨⟨.unchanged, .added, none, none, some [.idx 1], some (.leaf 3), none⟩, 1⟩,
     ⟨⟨.unchanged, .unchanged, some [.idx 1], some (.leaf 2),
       some [.idx 1], some (.leaf 2), none⟩, 0⟩],
    1, 2,
    ⟨⟨.unchanged, .added, none, none, some [.idx 1], some (.leaf 3), none⟩, 1⟩,
    ⟨⟨.unchanged, .unchanged, some [.idx 1], some (.leaf 2),
      some [.idx 1], some (.leaf 2), none⟩, 0⟩,
    rfl, rfl, rfl, ?_, rfl, ?_, ?_⟩
  · omega
  · simp
  · decide

/-- C7: a 2-element delta entry for key `k` promotes the (first) existing
record for `k` to `changed` and overwrites its right value with the entry's
second element; and a 2-element, 3-element, or nested-delta entry whose key
is absent from the enumerated base records makes `propertiesWithChanges`
throw an error naming the offending key instead of returning a list. -/
theorem update_entry_promotes_and_missing_key_fatal :
    (∀ (ict : ChangeType) (right : Option Branch) (props : List PropertyWithChange)
      (key : String) (lv rv : JsonValue)
      (hi : props.findIdx (fun p => p.objectKey == key) < props.length),
      applyPropertyDelta ict right props [(key, .entryList [lv, rv])] =
        .ok (props.set (props.findIdx (fun p => p.objectKey == key))
          { props.get ⟨props.findIdx (fun p => p.objectKey == key), hi⟩ with
            changeType := .changed, rightValue := some rv })) ∧
    (∀ (b : BranchesWithChanges) (value : JsonValue) (key : String) (c : Change),
      baseValue b = .ok value →
      b.delta = some (.objDelta [(key, c)]) →
      (∀ kv ∈ entriesOf value, kv.1 ≠ key) →
      ((∃ x y, c = .entryList [x, y]) ∨ (∃ x y z, c = .entryList [x, y, z]) ∨
        (∃ es, c = .objDelta es) ∨ (∃ rs is, c = .arrDelta rs is)) →
      propertiesWithChanges b = .error (propertyMissing key)) := by
  constructor
  · intro ict right props key lv rv hi
    have hup := updateProperty_eq_set
      (fun p => { p with rightValue := some rv, changeType := .changed }) hi
    have hc : applyPropertyChange ict right props key (.entryList [lv, rv]) =
        .ok (props.set (props.findIdx (fun p => p.objectKey == key))
          { props.get ⟨props.findIdx (fun p => p.objectKey == key), hi⟩ with
            changeType := .changed, rightValue := some rv }) := by
      show (match updateProperty key
            (fun p => { p with rightValue := some rv, changeType := .changed }) props with
          | some ps => Except.ok ps
          | none => Except.error (propertyMissing key)) = _
      rw [hup]
    unfold applyPropertyDelta
    rw [hc]
    simp only [ok_bind]
    unfold applyPropertyDelta
    rfl
  · intro b value key c hv hdelta hmiss hform
    have hkeys : ∀ p ∈ basePropsOf b value, p.objectKey ≠ key := by
      intro p hp
      rcases List.mem_map.mp hp with ⟨kv, hkv, rfl⟩
      exact hmiss kv hkv
    have hchange : applyPropertyChange b.implicitChangeType b.right
        (basePropsOf b value) key c = .error (propertyMissing key) := by
      rcases hform with ⟨x, y, rfl⟩ | ⟨x, y, z, rfl⟩ | ⟨es, rfl⟩ | ⟨rs, is, rfl⟩
      · show (match updateProperty key
            (fun p => { p with rightValue := some y, changeType := .changed })
            (basePropsOf b value) with
          | some ps => Except.ok ps
          | none => Except.error (propertyMissing key)) = _
        rw [updateProperty_none hkeys]
      · show (match updateProperty key
            (fun p => { p with changeType := .removed, rightValue := none, rightPath := none })
            (basePropsOf b value) with
          | some ps => Except.ok ps
          | none => Except.error (propertyMissing key)) = _
        rw [updateProperty_none hkeys]
      · show (match updateProperty key
            (fun p => { p with delta := some (Change.objDelta es) })
            (basePropsOf b value) with
          | some ps => Except.ok ps
          | none => Except.error (propertyMissing key)) = _
        rw [updateProperty_none hkeys]
      · show (match updateProperty key
            (fun p => { p with delta := some (Change.arrDelta rs is) })
            (basePropsOf b value) with
          | some ps => Except.ok ps
          | none => Except.error (propertyMissing key)) = _
        rw [updateProperty_none hkeys]
    unfold propertiesWithChanges
    rw [hv]
    simp only [ok_bind]
    have hstage : propertiesDeltaStage b (basePropsOf b value) =
        .error (propertyMissing key) := by
      unfold propertiesDeltaStage
      rw [hdelta]
      unfold applyPropertyDelta
      rw [hchange]
      rfl
    rw [hstage]
    rfl

/-- Witness for C7: the promotion at a concrete one-record list, and the
missing-key error at a concrete call. -/
theorem update_entry_promotes_and_missing_key_fatal_witness :
    applyPropertyDelta ChangeType.unchanged (some ⟨[], .obj [("k", .leaf 2)]⟩)
      [⟨⟨.unchanged, .unchanged, some [.key "k"], some (.leaf 1),
        some [.key "k"], some (.leaf 1), none⟩, "k"⟩]
      [("k", .entryList [.leaf 1, .leaf 2])] =
      .ok [⟨⟨.unchanged, .changed, some [.key "k"], some (.leaf 1),
        some [.key "k"], some (.leaf 2), none⟩, "k"⟩] ∧
    propertiesWithChanges
      { left := some ⟨[], .obj [("k", .leaf 1)]⟩,
        right := some ⟨[], .obj [("k", .leaf 2)]⟩,
        delta := some (.objDelta [("x", .entryList [.leaf 1, .leaf 2])]),
        implicitChangeType := .unchanged } = .error (propertyMissing "x") := by
  constructor
  · have h := update_entry_promotes_and_missing_key_fatal.1 ChangeType.unchanged
      (some ⟨[], .obj [("k", .leaf 2)]⟩)
      [⟨⟨.unchanged, .unchanged, some [.key "k"], some (.leaf 1),
        some [.key "k"], some (.leaf 1), none⟩, "k"⟩]
      "k" (.leaf 1) (.leaf 2) (by decide)
    simpa using h
  · exact update_entry_promotes_and_missing_key_fatal.2
      { left := some ⟨[], .obj [("k", .leaf 1)]⟩,
        right := some ⟨[], .obj [("k", .leaf 2)]⟩,
        delta := some (.objDelta [("x", .entryList [.leaf 1, .leaf 2])]),
        implicitChangeType := .unchanged }
      (.obj [("k", .leaf 1)]) "x" (.entryList [.leaf 1, .leaf 2]) rfl rfl
      (by intro kv hkv; simp [entriesOf] at hkv; subst hkv; simp)
      (Or.inl ⟨.leaf 1, .leaf 2, rfl⟩)

/-- C2: a single deletion marker at original index `I` marks the record at
original index `I` as `removed` (right branch dropped) and decrements the
stored index of every later record, so the remaining records' indices match
their positions in the after array; all deletion markers are processed
before any insertion entry (the removal fold runs before the insertion fold
in `itemsDeltaStage`).  In particular for before `[1,2,3]` and after `[1,3]`
the result has exactly one `removed` record (original index 1, value `2`)
and the remaining records carry final indices 0 and 1. -/
theorem removal_pass_marks_and_reindexes :
    (∀ (path : ObjectPath) (xs : List JsonValue) (I : Nat) (hI : I < xs.length),
      ∃ items, itemsWithChanges
        { left := some ⟨path, .arr xs⟩, right := some ⟨path, .arr xs⟩,
          delta := some (.arrDelta [I] []), implicitChangeType := .unchanged } =
        .ok items ∧
      items.length = xs.length ∧
      ∀ i (hi : i < xs.length),
        items[i]? = some (if i = I then
            ⟨⟨.unchanged, .removed, some (path ++ [.idx I]), some (xs.get ⟨I, hI⟩),
              none, none, none⟩, I⟩
          else
            ⟨⟨.unchanged, .unchanged, some (path ++ [.idx i]), some (xs.get ⟨i, hi⟩),
              some (path ++ [.idx i]), some (xs.get ⟨i, hi⟩), none⟩,
              if i ≤ I then i else i - 1⟩)) ∧
    itemsWithChanges
      { left := some ⟨[], .arr [.leaf 1, .leaf 2, .leaf 3]⟩,
        right := some ⟨[], .arr [.leaf 1, .leaf 3]⟩,
        delta := some (.arrDelta [1] []), implicitChangeType := .unchanged } =
      .ok [⟨⟨.unchanged, .unchanged, some [.idx 0], some (.leaf 1),
              some [.idx 0], some (.leaf 1), none⟩, 0⟩,
           ⟨⟨.unchanged, .removed, some [.idx 1], some (.leaf 2), none, none, none⟩, 1⟩,
           ⟨⟨.unchanged, .unchanged, some [.idx 2], some (.leaf 3),
              some [.idx 2], some (.leaf 3), none⟩, 1⟩] := by
  refine ⟨?_, rfl⟩
  intro path xs I hI
  have hblen : (baseItemsOf
      { left := some ⟨path, .arr xs⟩, right := some ⟨path, .arr xs⟩,
        delta := some (.arrDelta [I] []), implicitChangeType := .unchanged } xs).length =
      xs.length := by
    simp [baseItemsOf, List.enum_length]
  have hIlen : I < (baseItemsOf
      { left := some ⟨path, .arr xs⟩, right := some ⟨path, .arr xs⟩,
        delta := some (.arrDelta [I] []), implicitChangeType := .unchanged } xs).length := by
    rw [hblen]; exact hI
  have hbase : ∀ i (hi : i < xs.length), (baseItemsOf
      { left := some ⟨path, .arr xs⟩, right := some ⟨path, .arr xs⟩,
        delta := some (.arrDelta [I] []), implicitChangeType := .unchanged } xs)[i]? =
      some ⟨⟨.unchanged, .unchanged, some (path ++ [.idx i]), some (xs.get ⟨i, hi⟩),
        some (path ++ [.idx i]), some (xs.get ⟨i, hi⟩), none⟩, i⟩ := by
    intro i hi
    rw [baseItemsOf, List.getElem?_map, List.getElem?_enum, List.getElem?_eq_getElem hi]
    rfl
  have hgetI : (baseItemsOf
      { left := some ⟨path, .arr xs⟩, right := some ⟨path, .arr xs⟩,
        delta := some (.arrDelta [I] []), implicitChangeType := .unchanged } xs).get
        ⟨I, hIlen⟩ =
      ⟨⟨.unchanged, .unchanged, some (path ++ [.idx I]), some (xs.get ⟨I, hI⟩),
        some (path ++ [.idx I]), some (xs.get ⟨I, hI⟩), none⟩, I⟩ := by
    have h1 := hbase I hI
    rw [List.getElem?_eq_getElem hIlen] at h1
    exact Option.some.inj h1
  refine ⟨(((baseItemsOf
      { left := some ⟨path, .arr xs⟩, right := some ⟨path, .arr xs⟩,
        delta := some (.arrDelta [I] []), implicitChangeType := .unchanged } xs).set I
      ⟨⟨.unchanged, .removed, some (path ++ [.idx I]), some (xs.get ⟨I, hI⟩),
        none, none, none⟩, I⟩).map fun item =>
        if I < item.index then { item with index := item.index - 1 } else item),
    ?_, ?_, ?_⟩
  · -- the run itself
    have hrm : removeItem (baseItemsOf
        { left := some ⟨path, .arr xs⟩, right := some ⟨path, .arr xs⟩,
          delta := some (.arrDelta [I] []), implicitChangeType := .unchanged } xs) I =
        .ok (((baseItemsOf
          { left := some ⟨path, .arr xs⟩, right := some ⟨path, .arr xs⟩,
            delta := some (.arrDelta [I] []), implicitChangeType := .unchanged } xs).set I
          ⟨⟨.unchanged, .removed, some (path ++ [.idx I]), some (xs.get ⟨I, hI⟩),
            none, none, none⟩, I⟩).map fun item =>
            if I < item.index then { item with index := item.index - 1 } else item) := by
      unfold removeItem
      rw [dif_pos hIlen, hgetI]
    have h0 : itemsWithChanges
        { left := some ⟨path, .arr xs⟩, right := some ⟨path, .arr xs⟩,
          delta := some (.arrDelta [I] []), implicitChangeType := .unchanged } = (do
        let its ← itemsDeltaStage
          { left := some ⟨path, .arr xs⟩, right := some ⟨path, .arr xs⟩,
            delta := some (.arrDelta [I] []), implicitChangeType := .unchanged }
          (baseItemsOf
            { left := some ⟨path, .arr xs⟩, right := some ⟨path, .arr xs⟩,
              delta := some (.arrDelta [I] []), implicitChangeType := .unchanged } xs)
        checkItems its
        pure its) := rfl
    have h1 : itemsDeltaStage
        { left := some ⟨path, .arr xs⟩, right := some ⟨path, .arr xs⟩,
          delta := some (.arrDelta [I] []), implicitChangeType := .unchanged }
        (baseItemsOf
          { left := some ⟨path, .arr xs⟩, right := some ⟨path, .arr xs⟩,
            delta := some (.arrDelta [I] []), implicitChangeType := .unchanged } xs) = (do
        let mid ← List.foldlM removeItem
          (baseItemsOf
            { left := some ⟨path, .arr xs⟩, right := some ⟨path, .arr xs⟩,
              delta := some (.arrDelta [I] []), implicitChangeType := .unchanged } xs) [I]
        List.foldlM (fun its e => insertItem .unchanged (some ⟨path, .arr xs⟩)
          (some ⟨path, .arr xs⟩) its e.1 e.2) mid ([] : List (Nat × Change))) := rfl
    have hchk : checkItems (((baseItemsOf
        { left := some ⟨path, .arr xs⟩, right := some ⟨path, .arr xs⟩,
          delta := some (.arrDelta [I] []), implicitChangeType := .unchanged } xs).set I
        ⟨⟨.unchanged, .removed, some (path ++ [.idx I]), some (xs.get ⟨I, hI⟩),
          none, none, none⟩, I⟩).map fun item =>
          if I < item.index then { item with index := item.index - 1 } else item) =
        .ok () := by
      refine checkItems_ok_of_forall ?_
      intro it hit
      rcases List.mem_map.mp hit with ⟨q, hq, rfl⟩
      have hq' : checkItem q = .ok () := by
        rcases List.mem_or_eq_of_mem_set hq with hq2 | rfl
        · rcases List.mem_map.mp hq2 with ⟨iv, _, rfl⟩
          rfl
        · rfl
      by_cases hlt : I < q.index
      · have heq : checkItem { q with index := q.index - 1 } = checkItem q := rfl
        rw [if_pos hlt, heq]
        exact hq'
      · rw [if_neg hlt]
        exact hq'
    rw [h0, h1, List.foldlM_cons, hrm]
    simp only [ok_bind]
    rw [List.foldlM_nil]
    simp only [pure, Except.pure, ok_bind]
    rw [List.foldlM_nil]
    simp only [pure, Except.pure, ok_bind]
    rw [hchk]
    rfl
  · simp [hblen]
  · intro i hi
    rw [List.getElem?_map]
    by_cases hiI : i = I
    · subst hiI
      rw [List.getElem?_set_eq_of_lt _ hIlen]
      simp
    · rw [List.getElem?_set_ne (Ne.symm hiI), hbase i hi]
      by_cases hlt : I < i
      · have hle : ¬ i ≤ I := by omega
        simp [hlt, hiI, hle]
      · have hle : i ≤ I := by omega
        simp [hlt, hiI, hle]

/-- Witness for C2's universally quantified part, instantiated at before
`[1,2,3]` with the deletion marker at original index 1. -/
theorem removal_pass_marks_and_reindexes_witness :
    1 < ([JsonValue.leaf 1, .leaf 2, .leaf 3] : List JsonValue).length ∧
    ∃ items, itemsWithChanges
        { left := some ⟨[], .arr [.leaf 1, .leaf 2, .leaf 3]⟩,
          right := some ⟨[], .arr [.leaf 1, .leaf 2, .leaf 3]⟩,
          delta := some (.arrDelta [1] []), implicitChangeType := .unchanged } =
        .ok items ∧
      items.length = ([JsonValue.leaf 1, .leaf 2, .leaf 3] : List JsonValue).length ∧
      ∀ i (hi : i < ([JsonValue.leaf 1, .leaf 2, .leaf 3] : List JsonValue).length),
        items[i]? = some (if i = 1 then
            ⟨⟨.unchanged, .removed, some [.idx 1],
              some (([JsonValue.leaf 1, .leaf 2, .leaf 3] : List JsonValue).get
                ⟨1, by decide⟩), none, none, none⟩, 1⟩
          else
            ⟨⟨.unchanged, .unchanged, some [.idx i],
              some (([JsonValue.leaf 1, .leaf 2, .leaf 3] : List JsonValue).get ⟨i, hi⟩),
              some [.idx i],
              some (([JsonValue.leaf 1, .leaf 2, .leaf 3] : List JsonValue).get ⟨i, hi⟩),
              none⟩, if i ≤ 1 then i else i - 1⟩) :=
  ⟨by decide, removal_pass_marks_and_reindexes.1 [] [.leaf 1, .leaf 2, .leaf 3] 1 (by decide)⟩

/-- C3: a single insertion entry at final index `J` first increments the
index of every non-removed record whose index is at least `J` and then
splices a new `added` record (no left branch) in at list position `J`.  In
particular for before `[[1]]` and after `[[1],[2]]` the result is the
record at index 0 classified `unchanged` with value `[1]` and the record at
index 1 classified `added` with value `[2]`. -/
theorem insertion_pass_shifts_and_inserts :
    (∀ (path : ObjectPath) (xs : List JsonValue) (J : Nat) (v : JsonValue),
      J ≤ xs.length →
      ∃ items, itemsWithChanges
        { left := some ⟨path, .arr xs⟩, right := some ⟨path, .arr xs⟩,
          delta := some (.arrDelta [] [(J, .entryList [v])]),
          implicitChangeType := .unchanged } = .ok items ∧
      items.length = xs.length + 1 ∧
      items[J]? = some ⟨⟨.unchanged, .added, none, none,
        some (path ++ [.idx J]), some v, none⟩, J⟩ ∧
      (∀ i (hi : i < xs.length), i < J →
        items[i]? = some ⟨⟨.unchanged, .unchanged, some (path ++ [.idx i]),
          some (xs.get ⟨i, hi⟩), some (path ++ [.idx i]), some (xs.get ⟨i, hi⟩),
          none⟩, i⟩) ∧
      (∀ i (hi : i < xs.length), J ≤ i →
        items[i + 1]? = some ⟨⟨.unchanged, .unchanged, some (path ++ [.idx i]),
          some (xs.get ⟨i, hi⟩), some (path ++ [.idx i]), some (xs.get ⟨i, hi⟩),
          none⟩, i + 1⟩)) ∧
    itemsWithChanges
      { left := some ⟨[], .arr [.arr [.leaf 1]]⟩,
        right := some ⟨[], .arr [.arr [.leaf 1], .arr [.leaf 2]]⟩,
        delta := some (.arrDelta [] [(1, .entryList [.arr [.leaf 2]])]),
        implicitChangeType := .unchanged } =
      .ok [⟨⟨.unchanged, .unchanged, some [.idx 0], some (.arr [.leaf 1]),
              some [.idx 0], some (.arr [.leaf 1]), none⟩, 0⟩,
           ⟨⟨.unchanged, .added, none, none, some [.idx 1],
              some (.arr [.leaf 2]), none⟩, 1⟩] := by
  refine ⟨?_, rfl⟩
  intro path xs J v hJ
  have hblen : (baseItemsOf
      { left := some ⟨path, .arr xs⟩, right := some ⟨path, .arr xs⟩,
        delta := some (.arrDelta [] [(J, .entryList [v])]),
        implicitChangeType := .unchanged } xs).length = xs.length := by
    simp [baseItemsOf, List.enum_length]
  have hbase : ∀ i (hi : i < xs.length), (baseItemsOf
      { left := some ⟨path, .arr xs⟩, right := some ⟨path, .arr xs⟩,
        delta := some (.arrDelta [] [(J, .entryList [v])]),
        implicitChangeType := .unchanged } xs)[i]? =
      some ⟨⟨.unchanged, .unchanged, some (path ++ [.idx i]), some (xs.get ⟨i, hi⟩),
        some (path ++ [.idx i]), some (xs.get ⟨i, hi⟩), none⟩, i⟩ := by
    intro i hi
    rw [baseItemsOf, List.getElem?_map, List.getElem?_enum, List.getElem?_eq_getElem hi]
    rfl
  have hshlen : ((baseItemsOf
      { left := some ⟨path, .arr xs⟩, right := some ⟨path, .arr xs⟩,
        delta := some (.arrDelta [] [(J, .entryList [v])]),
        implicitChangeType := .unchanged } xs).map fun item =>
      if J ≤ item.index ∧ item.changeType ≠ ChangeType.removed then
        { item with index := item.index + 1 }
      else item).length = xs.length := by
    rw [List.length_map, hblen]
  have hsh : ∀ i (hi : i < xs.length), ((baseItemsOf
      { left := some ⟨path, .arr xs⟩, right := some ⟨path, .arr xs⟩,
        delta := some (.arrDelta [] [(J, .entryList [v])]),
        implicitChangeType := .unchanged } xs).map fun item =>
      if J ≤ item.index ∧ item.changeType ≠ ChangeType.removed then
        { item with index := item.index + 1 }
      else item)[i]? =
      some ⟨⟨.unchanged, .unchanged, some (path ++ [.idx i]), some (xs.get ⟨i, hi⟩),
        some (path ++ [.idx i]), some (xs.get ⟨i, hi⟩), none⟩,
        if J ≤ i then i + 1 else i⟩ := by
    intro i hi
    rw [List.getElem?_map, hbase i hi]
    by_cases hle : J ≤ i
    · simp [hle]
    · simp [hle]
  refine ⟨(((baseItemsOf
      { left := some ⟨path, .arr xs⟩, right := some ⟨path, .arr xs⟩,
        delta := some (.arrDelta [] [(J, .entryList [v])]),
        implicitChangeType := .unchanged } xs).map fun item =>
      if J ≤ item.index ∧ item.changeType ≠ ChangeType.removed then
        { item with index := item.index + 1 }
      else item).take J ++
      ⟨⟨.unchanged, .added, none, none, some (path ++ [.idx J]), some v, none⟩, J⟩ ::
      ((baseItemsOf
        { left := some ⟨path, .arr xs⟩, right := some ⟨path, .arr xs⟩,
          delta := some (.arrDelta [] [(J, .entryList [v])]),
          implicitChangeType := .unchanged } xs).map fun item =>
        if J ≤ item.index ∧ item.changeType ≠ ChangeType.removed then
          { item with index := item.index + 1 }
        else item).drop J), ?_, ?_, ?_, ?_, ?_⟩
  · -- the run itself
    have hchk : ∀ it ∈ (((baseItemsOf
        { left := some ⟨path, .arr xs⟩, right := some ⟨path, .arr xs⟩,
          delta := some (.arrDelta [] [(J, .entryList [v])]),
          implicitChangeType := .unchanged } xs).map fun item =>
        if J ≤ item.index ∧ item.changeType ≠ ChangeType.removed then
          { item with index := item.index + 1 }
        else item).take J ++
        ⟨⟨.unchanged, .added, none, none, some (path ++ [.idx J]), some v, none⟩, J⟩ ::
        ((baseItemsOf
          { left := some ⟨path, .arr xs⟩, right := some ⟨path, .arr xs⟩,
            delta := some (.arrDelta [] [(J, .entryList [v])]),
            implicitChangeType := .unchanged } xs).map fun item =>
          if J ≤ item.index ∧ item.changeType ≠ ChangeType.removed then
            { item with index := item.index + 1 }
          else item).drop J), checkItem it = .ok () := by
      have hshok : ∀ it ∈ ((baseItemsOf
          { left := some ⟨path, .arr xs⟩, right := some ⟨path, .arr xs⟩,
            delta := some (.arrDelta [] [(J, .entryList [v])]),
            implicitChangeType := .unchanged } xs).map fun item =>
          if J ≤ item.index ∧ item.changeType ≠ ChangeType.removed then
            { item with index := item.index + 1 }
          else item), checkItem it = .ok () := by
        intro it hit
        rcases List.mem_map.mp hit with ⟨q, hq, rfl⟩
        have hq' : checkItem q = .ok () := by
          rcases List.mem_map.mp hq with ⟨iv, _, rfl⟩
          rfl
        by_cases hc : J ≤ q.index ∧ q.changeType ≠ ChangeType.removed
        · have heq : checkItem { q with index := q.index + 1 } = checkItem q := rfl
          rw [if_pos hc, heq]
          exact hq'
        · rw [if_neg hc]
          exact hq'
      intro it hit
      rcases List.mem_append.mp hit with h1 | h2
      · exact hshok it (List.mem_of_mem_take h1)
      · rcases List.mem_cons.mp h2 with rfl | h3
        · rfl
        · exact hshok it (List.mem_of_mem_drop h3)
    have hins : insertItem ChangeType.unchanged (some ⟨path, .arr xs⟩)
        (some ⟨path, .arr xs⟩)
        (baseItemsOf
          { left := some ⟨path, .arr xs⟩, right := some ⟨path, .arr xs⟩,
            delta := some (.arrDelta [] [(J, .entryList [v])]),
            implicitChangeType := .unchanged } xs) J (.entryList [v]) =
        .ok (((baseItemsOf
          { left := some ⟨path, .arr xs⟩, right := some ⟨path, .arr xs⟩,
            delta := some (.arrDelta [] [(J, .entryList [v])]),
            implicitChangeType := .unchanged } xs).map fun item =>
          if J ≤ item.index ∧ item.changeType ≠ ChangeType.removed then
            { item with index := item.index + 1 }
          else item).take J ++
          ⟨⟨.unchanged, .added, none, none, some (path ++ [.idx J]), some v, none⟩, J⟩ ::
          ((baseItemsOf
            { left := some ⟨path, .arr xs⟩, right := some ⟨path, .arr xs⟩,
              delta := some (.arrDelta [] [(J, .entryList [v])]),
              implicitChangeType := .unchanged } xs).map fun item =>
            if J ≤ item.index ∧ item.changeType ≠ ChangeType.removed then
              { item with index := item.index + 1 }
            else item).drop J) := rfl
    have h0 : itemsWithChanges
        { left := some ⟨path, .arr xs⟩, right := some ⟨path, .arr xs⟩,
          delta := some (.arrDelta [] [(J, .entryList [v])]),
          implicitChangeType := .unchanged } = (do
        let mid ← List.foldlM (fun its (e : Nat × Change) =>
          insertItem ChangeType.unchanged (some ⟨path, .arr xs⟩) (some ⟨path, .arr xs⟩)
            its e.1 e.2)
          (baseItemsOf
            { left := some ⟨path, .arr xs⟩, right := some ⟨path, .arr xs⟩,
              delta := some (.arrDelta [] [(J, .entryList [v])]),
              implicitChangeType := .unchanged } xs) [(J, .entryList [v])]
        checkItems mid
        pure mid) := rfl
    rw [h0, List.foldlM_cons, hins]
    simp only [ok_bind]
    rw [List.foldlM_nil]
    simp only [pure, Except.pure, ok_bind]
    rw [checkItems_ok_of_forall hchk]
    rfl
  · -- length
    rw [List.length_append, List.length_cons, List.length_take, List.length_drop, hshlen]
    omega
  · -- the added record at position J
    rw [List.getElem?_append]
    have hJtake : ¬ J < (((baseItemsOf
        { left := some ⟨path, .arr xs⟩, right := some ⟨path, .arr xs⟩,
          delta := some (.arrDelta [] [(J, .entryList [v])]),
          implicitChangeType := .unchanged } xs).map fun item =>
        if J ≤ item.index ∧ item.changeType ≠ ChangeType.removed then
          { item with index := item.index + 1 }
        else item).take J).length := by
      rw [List.length_take, hshlen]
      omega
    rw [if_neg hJtake]
    rw [List.length_take, hshlen]
    have hz : J - min J xs.length = 0 := by omega
    rw [hz]
    exact List.getElem?_cons_zero
  · -- records before the insertion point
    intro i hi hiJ
    rw [List.getElem?_append]
    have hitake : i < (((baseItemsOf
        { left := some ⟨path, .arr xs⟩, right := some ⟨path, .arr xs⟩,
          delta := some (.arrDelta [] [(J, .entryList [v])]),
          implicitChangeType := .unchanged } xs).map fun item =>
        if J ≤ item.index ∧ item.changeType ≠ ChangeType.removed then
          { item with index := item.index + 1 }
        else item).take J).length := by
      rw [List.length_take, hshlen]
      omega
    rw [if_pos hitake, List.getElem?_take, if_pos (by omega : i < J), hsh i hi]
    have hle : ¬ J ≤ i := by omega
    simp [hle]
  · -- records at and after the insertion point
    intro i hi hJi
    rw [List.getElem?_append]
    have hnlt : ¬ i + 1 < (((baseItemsOf
        { left := some ⟨path, .arr xs⟩, right := some ⟨path, .arr xs⟩,
          delta := some (.arrDelta [] [(J, .entryList [v])]),
          implicitChangeType := .unchanged } xs).map fun item =>
        if J ≤ item.index ∧ item.changeType ≠ ChangeType.removed then
          { item with index := item.index + 1 }
        else item).take J).length := by
      rw [List.length_take, hshlen]
      omega
    rw [if_neg hnlt, List.length_take, hshlen]
    have harith : i + 1 - min J xs.length = (i - J) + 1 := by omega
    rw [harith, List.getElem?_cons_succ, List.getElem?_drop]
    have harith2 : J + (i - J) = i := by omega
    rw [harith2, hsh i hi]
    have hle : J ≤ i := hJi
    simp [hle]

/-- Witness for C3's universally quantified part, instantiated at before
`[[1]]` with the insertion at final index 1. -/
theorem insertion_pass_shifts_and_inserts_witness :
    1 ≤ ([JsonValue.arr [.leaf 1]] : List JsonValue).length ∧
    ∃ items, itemsWithChanges
        { left := some ⟨[], .arr [.arr [.leaf 1]]⟩,
          right := some ⟨[], .arr [.arr [.leaf 1]]⟩,
          delta := some (.arrDelta [] [(1, .entryList [.arr [.leaf 2]])]),
          implicitChangeType := .unchanged } = .ok items ∧
      items.length = ([JsonValue.arr [.leaf 1]] : List JsonValue).length + 1 ∧
      items[1]? = some ⟨⟨.unchanged, .added, none, none,
        some [.idx 1], some (.arr [.leaf 2]), none⟩, 1⟩ ∧
      (∀ i (hi : i < ([JsonValue.arr [.leaf 1]] : List JsonValue).length), i < 1 →
        items[i]? = some ⟨⟨.unchanged, .unchanged, some [.idx i],
          some (([JsonValue.arr [.leaf 1]] : List JsonValue).get ⟨i, hi⟩),
          some [.idx i],
          some (([JsonValue.arr [.leaf 1]] : List JsonValue).get ⟨i, hi⟩),
          none⟩, i⟩) ∧
      (∀ i (hi : i < ([JsonValue.arr [.leaf 1]] : List JsonValue).length), 1 ≤ i →
        items[i + 1]? = some ⟨⟨.unchanged, .unchanged, some [.idx i],
          some (([JsonValue.arr [.leaf 1]] : List JsonValue).get ⟨i, hi⟩),
          some [.idx i],
          some (([JsonValue.arr [.leaf 1]] : List JsonValue).get ⟨i, hi⟩),
          none⟩, i + 1⟩) :=
  ⟨by decide, insertion_pass_shifts_and_inserts.1 [] [.arr [.leaf 1]] 1 (.arr [.leaf 2])
    (by decide)⟩

/-! ### Identical documents and the rendering descent -/

theorem wfValue_arr_mem {xs : List JsonValue} {x : JsonValue}
    (h : wfValue (.arr xs) = true) (hx : x ∈ xs) : wfValue x = true := by
  rw [wfValue] at h
  simp only [List.all_eq_true] at h
  exact h ⟨x, hx⟩ (List.mem_attach xs ⟨x, hx⟩)

theorem wfValue_obj_nodup {kvs : List (String × JsonValue)}
    (h : wfValue (.obj kvs) = true) : (kvs.map Prod.fst).Nodup := by
  rw [wfValue] at h
  simp only [Bool.and_eq_true, decide_eq_true_eq] at h
  exact h.1

theorem wfValue_obj_mem {kvs : List (String × JsonValue)} {kv : String × JsonValue}
    (h : wfValue (.obj kvs) = true) (hkv : kv ∈ kvs) : wfValue kv.2 = true := by
  rw [wfValue] at h
  simp only [Bool.and_eq_true, List.all_eq_true] at h
  exact h.2 ⟨kv, hkv⟩ (List.mem_attach kvs ⟨kv, hkv⟩)

theorem lookup_eq_of_nodup {α : Type _} [BEq α] [LawfulBEq α] {β : Type _} :
    ∀ {kvs : List (α × β)} {k : α} {v : β}, (kvs.map Prod.fst).Nodup →
      (k, v) ∈ kvs → kvs.lookup k = some v := by
  intro kvs
  induction kvs with
  | nil => intro k v _ hm; cases hm
  | cons kv rest ih =>
    intro k v hnd hm
    have hnd2 : (kv.1 :: rest.map Prod.fst).Nodup := by
      rw [List.map_cons] at hnd
      exact hnd
    have hnd' := List.nodup_cons.mp hnd2
    rcases List.mem_cons.mp hm with rfl | hm'
    · simp [List.lookup]
    · have hne : kv.1 ≠ k := by
        intro hkk
        exact hnd'.1 (hkk ▸ List.mem_map.mpr ⟨(k, v), hm', rfl⟩)
      have hbeq : (k == kv.1) = false := by
        rw [beq_eq_false_iff_ne]
        exact fun hkk => hne hkk.symm
      rw [List.lookup, hbeq]
      exact ih hnd'.2 hm'

theorem splitStep_none_of_forall {ict : ChangeType} :
    ∀ {props : List PropertyWithChange}, (∀ p ∈ props, isShapeMismatched p = false) →
      splitStep ict props = none := by
  intro props
  induction props with
  | nil => intro _; rfl
  | cons p rest ih =>
    intro hall
    rw [splitStep, if_neg (by rw [hall p (List.mem_cons_self ..)]; simp),
      ih fun q hq => hall q (List.mem_cons_of_mem p hq)]
    rfl

theorem shapeSplit_id {ict : ChangeType} {props : List PropertyWithChange}
    (h : ∀ p ∈ props, isShapeMismatched p = false) : shapeSplit ict props = props := by
  have hcnt : mismatchCount props = 0 := by
    rw [mismatchCount, List.filter_eq_nil_iff.mpr fun p hp => by rw [h p hp]; simp]
    rfl
  rw [shapeSplit, hcnt]
  rfl

/-- Expanding a mapping node whose two branches carry the same object and no
delta yields one two-sided `unchanged` record per key. -/
theorem propertiesWithChanges_identical {p1 p2 : ObjectPath}
    {kvs : List (String × JsonValue)} (hnodup : (kvs.map Prod.fst).Nodup) :
    propertiesWithChanges
      { left := some ⟨p1, .obj kvs⟩, right := some ⟨p2, .obj kvs⟩,
        delta := none, implicitChangeType := .unchanged } =
      .ok (kvs.map fun kv =>
        ⟨⟨.unchanged, .unchanged, some (p1 ++ [.key kv.1]), some kv.2,
          some (p2 ++ [.key kv.1]), some kv.2, none⟩, kv.1⟩) := by
  have hbase : basePropsOf
      { left := some ⟨p1, .obj kvs⟩, right := some ⟨p2, .obj kvs⟩,
        delta := none, implicitChangeType := .unchanged } (.obj kvs) =
      kvs.map fun kv =>
        ⟨⟨.unchanged, .unchanged, some (p1 ++ [.key kv.1]), some kv.2,
          some (p2 ++ [.key kv.1]), some kv.2, none⟩, kv.1⟩ := by
    rw [basePropsOf]
    refine List.map_congr_left ?_
    intro kv hkv
    have hlk : kvs.lookup kv.1 = some kv.2 := by
      rcases kv with ⟨k, v⟩
      exact lookup_eq_of_nodup hnodup hkv
    rw [show entriesOf (.obj kvs) = kvs from rfl] at hkv
    show mkBaseProperty .unchanged (some ⟨p1, .obj kvs⟩) (some ⟨p2, .obj kvs⟩) kv.1 kv.2 = _
    rw [mkBaseProperty]
    simp only [childPath, Option.map_some', Option.isSome_some, if_pos, Option.some_bind]
    rw [show getProp (JsonValue.obj kvs) kv.1 = kvs.lookup kv.1 from rfl, hlk]
  have hnomis : ∀ p ∈ kvs.map fun kv =>
      (⟨⟨.unchanged, .unchanged, some (p1 ++ [.key kv.1]), some kv.2,
        some (p2 ++ [.key kv.1]), some kv.2, none⟩, kv.1⟩ : PropertyWithChange),
      isShapeMismatched p = false := by
    intro p hp
    rcases List.mem_map.mp hp with ⟨kv, _, rfl⟩
    rfl
  have hchk : checkProperties (kvs.map fun kv =>
      (⟨⟨.unchanged, .unchanged, some (p1 ++ [.key kv.1]), some kv.2,
        some (p2 ++ [.key kv.1]), some kv.2, none⟩, kv.1⟩ : PropertyWithChange)) =
      .ok () := by
    refine checkProperties_ok_of_forall ?_
    intro p hp
    rcases List.mem_map.mp hp with ⟨kv, _, rfl⟩
    rfl
  have h0 : propertiesWithChanges
      { left := some ⟨p1, .obj kvs⟩, right := some ⟨p2, .obj kvs⟩,
        delta := none, implicitChangeType := .unchanged } = (do
      let props ← propertiesDeltaStage
        { left := some ⟨p1, .obj kvs⟩, right := some ⟨p2, .obj kvs⟩,
          delta := none, implicitChangeType := .unchanged }
        (basePropsOf
          { left := some ⟨p1, .obj kvs⟩, right := some ⟨p2, .obj kvs⟩,
            delta := none, implicitChangeType := .unchanged } (.obj kvs))
      let props := shapeSplit .unchanged props
      checkProperties props
      pure props) := rfl
  rw [h0, hbase, propertiesDeltaStage_none rfl]
  simp only [ok_bind]
  rw [shapeSplit_id hnomis, hchk]
  rfl

/-- Expanding a sequence node whose two branches carry the same array and no
delta yields one two-sided `unchanged` record per element. -/
theorem itemsWithChanges_identical {p1 p2 : ObjectPath} {xs : List JsonValue} :
    itemsWithChanges
      { left := some ⟨p1, .arr xs⟩, right := some ⟨p2, .arr xs⟩,
        delta := none, implicitChangeType := .unchanged } =
      .ok (xs.enum.map fun iv =>
        ⟨⟨.unchanged, .unchanged, some (p1 ++ [.idx iv.1]), some iv.2,
          some (p2 ++ [.idx iv.1]), some iv.2, none⟩, iv.1⟩) := by
  have hchk : checkItems (xs.enum.map fun iv =>
      (⟨⟨.unchanged, .unchanged, some (p1 ++ [.idx iv.1]), some iv.2,
        some (p2 ++ [.idx iv.1]), some iv.2, none⟩, iv.1⟩ : ItemWithChange)) =
      .ok () := by
    refine checkItems_ok_of_forall ?_
    intro it hit
    rcases List.mem_map.mp hit with ⟨iv, _, rfl⟩
    rfl
  have h0 : itemsWithChanges
      { left := some ⟨p1, .arr xs⟩, right := some ⟨p2, .arr xs⟩,
        delta := none, implicitChangeType := .unchanged } = (do
      checkItems (xs.enum.map fun iv =>
        (⟨⟨.unchanged, .unchanged, some (p1 ++ [.idx iv.1]), some iv.2,
          some (p2 ++ [.idx iv.1]), some iv.2, none⟩, iv.1⟩ : ItemWithChange))
      pure (xs.enum.map fun iv =>
        (⟨⟨.unchanged, .unchanged, some (p1 ++ [.idx iv.1]), some iv.2,
          some (p2 ++ [.idx iv.1]), some iv.2, none⟩, iv.1⟩ : ItemWithChange))) := rfl
  rw [h0, hchk]
  rfl

theorem toBranches_ok_elim {o : ObjectWithChange} {b : BranchesWithChanges}
    (h : toBranches o = .ok b) :
    b.delta = o.delta ∧ b.implicitChangeType = getImplicitChangeType o := by
  unfold toBranches at h
  cases h1 : branchFrom o.leftPath o.leftValue with
  | error e => rw [h1] at h; simp at h
  | ok L =>
    rw [h1] at h; simp only [ok_bind] at h
    cases h2 : branchFrom o.rightPath o.rightValue with
    | error e => rw [h2] at h; simp at h
    | ok R =>
      rw [h2] at h
      simp only [ok_bind, pure, Except.pure, Except.ok.injEq] at h
      subst h
      exact ⟨rfl, rfl⟩

theorem buildChildren_cons {go : ObjectWithChange → Except String ChangeNode}
    {o : ObjectWithChange} {rest : List ObjectWithChange} :
    buildChildren go (o :: rest) = (do
      let c ← go o
      let cs ← buildChildren go rest
      pure (c :: cs)) := rfl

theorem buildChildren_forall {go : ObjectWithChange → Except String ChangeNode}
    {Q : ChangeNode → Prop} :
    ∀ {objs : List ObjectWithChange} {ts : List ChangeNode},
      buildChildren go objs = .ok ts →
      (∀ o ∈ objs, ∀ t, go o = .ok t → Q t) → ∀ t ∈ ts, Q t := by
  intro objs
  induction objs with
  | nil =>
    intro ts h _
    have h' : (pure [] : Except String (List ChangeNode)) = .ok ts := h
    injection h' with h'
    subst h'
    intro t ht
    cases ht
  | cons o rest ih =>
    intro ts h hall
    rw [buildChildren_cons] at h
    cases hgo : go o with
    | error e => rw [hgo] at h; simp at h
    | ok c =>
      rw [hgo] at h; simp only [ok_bind] at h
      cases hrest : buildChildren go rest with
      | error e => rw [hrest] at h; simp at h
      | ok cs =>
        rw [hrest] at h
        simp only [ok_bind, pure, Except.pure, Except.ok.injEq] at h
        subst h
        intro t ht
        rcases List.mem_cons.mp ht with rfl | ht'
        · exact hall o (List.mem_cons_self ..) t hgo
        · exact ih hrest (fun o' ho' => hall o' (List.mem_cons_of_mem o ho')) t ht'

/-- Every record produced by `propertiesWithChanges` carries the implicit
change type of the call. -/
theorem propertiesWithChanges_ict {b : BranchesWithChanges}
    {props : List PropertyWithChange} (h : propertiesWithChanges b = .ok props) :
    ∀ p ∈ props, p.implicitChangeType = b.implicitChangeType := by
  refine propertiesWithChanges_forall h ?_ ?_ ?_ ?_ ?_ ?_
  · intro k v; rfl
  · intro key path rv; rfl
  · intro q rv hq; exact hq
  · intro q hq; exact hq
  · intro q d hq; exact hq
  · intro p _ _; exact ⟨rfl, rfl⟩

/-- Every record produced by `itemsWithChanges` carries the implicit change
type of the call. -/
theorem itemsWithChanges_ict {b : BranchesWithChanges}
    {items : List ItemWithChange} (h : itemsWithChanges b = .ok items) :
    ∀ it ∈ items, it.implicitChangeType = b.implicitChangeType := by
  refine itemsWithChanges_forall h ?_ ?_ ?_ ?_ ?_
  · intro i v; rfl
  · intro q hq; exact hq
  · intro q hq; exact hq
  · intro q hq; exact hq
  · intro idx path rv; rfl

theorem buildNode_identical :
    ∀ (fuel : Nat) (o : ObjectWithChange) (t : ChangeNode),
      GoodRec o → buildNode fuel o = .ok t →
      allRecords unchangedBoth t = true := by
  intro fuel
  induction fuel with
  | zero => intro o t _ h; exact Except.noConfusion h
  | succ n ih =>
    intro o t hg h
    obtain ⟨hct, hict, hdelta, lp, rp, v, hlp, hrp, hlv, hrv, hwf⟩ := hg
    have hgi : getImplicitChangeType o = .unchanged := by
      simp [getImplicitChangeType, hict, hct]
    have hdisp : displayValue o = some v := by
      simp [displayValue, hct, hlv]
    have htb : toBranches o = .ok
        { left := some ⟨lp, v⟩, right := some ⟨rp, v⟩,
          delta := none, implicitChangeType := .unchanged } := by
      unfold toBranches
      rw [hlp, hlv, hrp, hrv, hdelta, hgi]
      rfl
    have hub : unchangedBoth o = true := by
      simp [unchangedBoth, hct, hlp, hlv, hrp, hrv]
    simp only [buildNode] at h
    rw [hdisp] at h
    cases v with
    | leaf i =>
      have h' : Except.ok (ChangeNode.node o []) = Except.ok t := h
      injection h' with h'
      subst h'
      rw [allRecords, hub]
      rfl
    | arr xs =>
      have h' : (do
          let b ← toBranches o
          let items ← itemsWithChanges b
          let children ← buildChildren (fun o2 => buildNode n o2)
            (items.map (·.toObjectWithChange))
          pure (ChangeNode.node o children) : Except String ChangeNode) =
          Except.ok t := h
      rw [htb] at h'
      simp only [ok_bind] at h'
      rw [itemsWithChanges_identical] at h'
      simp only [ok_bind] at h'
      cases hbc : buildChildren (fun o2 => buildNode n o2)
          ((xs.enum.map fun iv =>
            (⟨⟨.unchanged, .unchanged, some (lp ++ [.idx iv.1]), some iv.2,
              some (rp ++ [.idx iv.1]), some iv.2, none⟩, iv.1⟩ : ItemWithChange)).map
            (·.toObjectWithChange)) with
      | error e => rw [hbc] at h'; exact Except.noConfusion h'
      | ok children =>
        rw [hbc] at h'
        simp only [ok_bind, pure, Except.pure, Except.ok.injEq] at h'
        subst h'
        have hkids : ∀ c ∈ children, allRecords unchangedBoth c = true := by
          refine buildChildren_forall hbc ?_
          intro o2 ho2 t2 ht2
          rcases List.mem_map.mp ho2 with ⟨it, hit, rfl⟩
          rcases List.mem_map.mp hit with ⟨iv, hiv, rfl⟩
          refine ih _ t2 ?_ ht2
          exact ⟨rfl, rfl, rfl, lp ++ [.idx iv.1], rp ++ [.idx iv.1], iv.2,
            rfl, rfl, rfl, rfl, wfValue_arr_mem hwf (List.snd_mem_of_mem_enum hiv)⟩
        rw [allRecords, hub]
        simp only [Bool.true_and, List.all_eq_true]
        intro c _
        exact hkids c.1 c.2
    | obj kvs =>
      have hnodup : (kvs.map Prod.fst).Nodup := wfValue_obj_nodup hwf
      have h' : (do
          let b ← toBranches o
          let props ← propertiesWithChanges b
          let children ← buildChildren (fun o2 => buildNode n o2)
            (props.map (·.toObjectWithChange))
          pure (ChangeNode.node o children) : Except String ChangeNode) =
          Except.ok t := h
      rw [htb] at h'
      simp only [ok_bind] at h'
      rw [propertiesWithChanges_identical hnodup] at h'
      simp only [ok_bind] at h'
      cases hbc : buildChildren (fun o2 => buildNode n o2)
          ((kvs.map fun kv =>
            (⟨⟨.unchanged, .unchanged, some (lp ++ [.key kv.1]), some kv.2,
              some (rp ++ [.key kv.1]), some kv.2, none⟩, kv.1⟩ : PropertyWithChange)).map
            (·.toObjectWithChange)) with
      | error e => rw [hbc] at h'; exact Except.noConfusion h'
      | ok children =>
        rw [hbc] at h'
        simp only [ok_bind, pure, Except.pure, Except.ok.injEq] at h'
        subst h'
        have hkids : ∀ c ∈ children, allRecords unchangedBoth c = true := by
          refine buildChildren_forall hbc ?_
          intro o2 ho2 t2 ht2
          rcases List.mem_map.mp ho2 with ⟨pw, hpw, rfl⟩
          rcases List.mem_map.mp hpw with ⟨kv, hkv, rfl⟩
          refine ih _ t2 ?_ ht2
          exact ⟨rfl, rfl, rfl, lp ++ [.key kv.1], rp ++ [.key kv.1], kv.2,
            rfl, rfl, rfl, rfl, wfValue_obj_mem hwf hkv⟩
        rw [allRecords, hub]
        simp only [Bool.true_and, List.all_eq_true]
        intro c _
        exact hkids c.1 c.2

/-- C5: for every document `D`, building the change tree for the pair
`(D, D)` — the Diff Engine reports no delta — yields a tree in which every
record at every level has changeType `unchanged` and carries both a left and
a right branch. -/
theorem identical_documents_all_unchanged (D : JsonValue) (fuel : Nat)
    (t : ChangeNode) (hwf : wfValue D = true)
    (h : buildTree fuel D D none = .ok t) :
    allRecords unchangedBoth t = true :=
  buildNode_identical fuel (rootRecord D D none) t
    ⟨rfl, rfl, rfl, [], [], D, rfl, rfl, rfl, rfl, hwf⟩ h

theorem identical_documents_all_unchanged_witness :
    wfValue (JsonValue.obj [("a", .arr [.leaf 1])]) = true ∧
    buildTree 5 (.obj [("a", .arr [.leaf 1])]) (.obj [("a", .arr [.leaf 1])]) none = .ok
      (.node ⟨.unchanged, .unchanged, some [], some (.obj [("a", .arr [.leaf 1])]),
          some [], some (.obj [("a", .arr [.leaf 1])]), none⟩
        [.node ⟨.unchanged, .unchanged, some [.key "a"], some (.arr [.leaf 1]),
            some [.key "a"], some (.arr [.leaf 1]), none⟩
          [.node ⟨.unchanged, .unchanged, some [.key "a", .idx 0], some (.leaf 1),
              some [.key "a", .idx 0], some (.leaf 1), none⟩ []]]) ∧
    allRecords unchangedBoth
      (.node ⟨.unchanged, .unchanged, some [], some (.obj [("a", .arr [.leaf 1])]),
          some [], some (.obj [("a", .arr [.leaf 1])]), none⟩
        [.node ⟨.unchanged, .unchanged, some [.key "a"], some (.arr [.leaf 1]),
            some [.key "a"], some (.arr [.leaf 1]), none⟩
          [.node ⟨.unchanged, .unchanged, some [.key "a", .idx 0], some (.leaf 1),
              some [.key "a", .idx 0], some (.leaf 1), none⟩ []]]) = true :=
  ⟨by simp [wfValue], rfl,
    identical_documents_all_unchanged (.obj [("a", .arr [.leaf 1])]) 5 _
      (by simp [wfValue]) rfl⟩

/-- C8: sticky propagation — expanding a record whose `implicitChangeType`
is `added` or `removed` yields a subtree in which every record (the record
itself and every descendant produced by `propertiesWithChanges` or
`itemsWithChanges`, recursively) has that same `implicitChangeType`,
irrespective of its own locally computed `changeType`. -/
theorem sticky_implicit_change_type (c : ChangeType)
    (hc : c = .added ∨ c = .removed) :
    ∀ (fuel : Nat) (o : ObjectWithChange) (t : ChangeNode),
      o.implicitChangeType = c → buildNode fuel o = .ok t →
      allRecords (fun r => r.implicitChangeType == c) t = true := by
  intro fuel
  induction fuel with
  | zero => intro o t _ h; exact Except.noConfusion h
  | succ n ih =>
    intro o t hict h
    have hgi : getImplicitChangeType o = c := by
      rw [getImplicitChangeType,
        if_pos (by rcases hc with rfl | rfl; exacts [Or.inl hict, Or.inr hict])]
      exact hict
    have hpo : (o.implicitChangeType == c) = true := by
      simp [hict]
    simp only [buildNode] at h
    cases hdisp : displayValue o with
    | none =>
      rw [hdisp] at h
      have h' : Except.ok (ChangeNode.node o []) = Except.ok t := h
      injection h' with h'
      subst h'
      rw [allRecords, hpo]
      rfl
    | some v =>
      rw [hdisp] at h
      cases v with
      | leaf i =>
        have h' : Except.ok (ChangeNode.node o []) = Except.ok t := h
        injection h' with h'
        subst h'
        rw [allRecords, hpo]
        rfl
      | arr xs =>
        have h' : (do
            let b ← toBranches o
            let items ← itemsWithChanges b
            let children ← buildChildren (fun o2 => buildNode n o2)
              (items.map (·.toObjectWithChange))
            pure (ChangeNode.node o children) : Except String ChangeNode) =
            Except.ok t := h
        cases htb : toBranches o with
        | error e => rw [htb] at h'; exact Except.noConfusion h'
        | ok b =>
          rw [htb] at h'
          simp only [ok_bind] at h'
          have hbict : b.implicitChangeType = c :=
            (toBranches_ok_elim htb).2.trans hgi
          cases hitems : itemsWithChanges b with
          | error e => rw [hitems] at h'; exact Except.noConfusion h'
          | ok items =>
            rw [hitems] at h'
            simp only [ok_bind] at h'
            cases hbc : buildChildren (fun o2 => buildNode n o2)
                (items.map (·.toObjectWithChange)) with
            | error e => rw [hbc] at h'; exact Except.noConfusion h'
            | ok children =>
              rw [hbc] at h'
              simp only [ok_bind, pure, Except.pure, Except.ok.injEq] at h'
              subst h'
              have hkids : ∀ k ∈ children,
                  allRecords (fun r => r.implicitChangeType == c) k = true := by
                refine buildChildren_forall hbc ?_
                intro o2 ho2 t2 ht2
                rcases List.mem_map.mp ho2 with ⟨it, hit, rfl⟩
                refine ih _ t2 ?_ ht2
                exact (itemsWithChanges_ict hitems it hit).trans hbict
              rw [allRecords, hpo]
              simp only [Bool.true_and, List.all_eq_true]
              intro k _
              exact hkids k.1 k.2
      | obj kvs =>
        have h' : (do
            let b ← toBranches o
            let props ← propertiesWithChanges b
            let children ← buildChildren (fun o2 => buildNode n o2)
              (props.map (·.toObjectWithChange))
            pure (ChangeNode.node o children) : Except String ChangeNode) =
            Except.ok t := h
        cases htb : toBranches o with
        | error e => rw [htb] at h'; exact Except.noConfusion h'
        | ok b =>
          rw [htb] at h'
          simp only [ok_bind] at h'
          have hbict : b.implicitChangeType = c :=
            (toBranches_ok_elim htb).2.trans hgi
          cases hprops : propertiesWithChanges b with
          | error e => rw [hprops] at h'; exact Except.noConfusion h'
          | ok props =>
            rw [hprops] at h'
            simp only [ok_bind] at h'
            cases hbc : buildChildren (fun o2 => buildNode n o2)
                (props.map (·.toObjectWithChange)) with
            | error e => rw [hbc] at h'; exact Except.noConfusion h'
            | ok children =>
              rw [hbc] at h'
              simp only [ok_bind, pure, Except.pure, Except.ok.injEq] at h'
              subst h'
              have hkids : ∀ k ∈ children,
                  allRecords (fun r => r.implicitChangeType == c) k = true := by
                refine buildChildren_forall hbc ?_
                intro o2 ho2 t2 ht2
                rcases List.mem_map.mp ho2 with ⟨pw, hpw, rfl⟩
                refine ih _ t2 ?_ ht2
                exact (propertiesWithChanges_ict hprops pw hpw).trans hbict
              rw [allRecords, hpo]
              simp only [Bool.true_and, List.all_eq_true]
              intro k _
              exact hkids k.1 k.2

theorem sticky_implicit_change_type_witness :
    (ChangeType.added = ChangeType.added ∨ ChangeType.added = ChangeType.removed) ∧
    (⟨.added, .added, none, none, some [], some (.arr [.leaf 1]),
      none⟩ : ObjectWithChange).implicitChangeType = .added ∧
    buildNode 3 ⟨.added, .added, none, none, some [], some (.arr [.leaf 1]), none⟩ = .ok
      (.node ⟨.added, .added, none, none, some [], some (.arr [.leaf 1]), none⟩
        [.node ⟨.added, .unchanged, none, none, some [.idx 0], some (.leaf 1), none⟩ []]) ∧
    allRecords (fun r => r.implicitChangeType == ChangeType.added)
      (.node ⟨.added, .added, none, none, some [], some (.arr [.leaf 1]), none⟩
        [.node ⟨.added, .unchanged, none, none, some [.idx 0], some (.leaf 1), none⟩ []]) =
      true :=
  ⟨Or.inl rfl, rfl, rfl,
    sticky_implicit_change_type .added (Or.inl rfl) 3
      ⟨.added, .added, none, none, some [], some (.arr [.leaf 1]), none⟩ _ rfl rfl⟩

end CV
